import Mathlib

/-!
# Verification of the Divido balance and settlement core

Shallow embedding of the two pure components of the repository:

* the Balance Engine (`src/lib/balanceCalculations.ts`): `calculateBalances`,
  `validateBalanceSum` and friends, and
* the Settlement Planner (`src/unnamed/part_002`): `minimizeSettlements`,
  `validateSettlements`, `getTheoreticalMinimum`, `minimizeSettlementsAlternative`.

JavaScript numbers are modelled as rationals (`ℚ`); `Math.round x` is
`⌊x + 1/2⌋` (round half toward positive infinity, as in JS), and
`Math.abs` is `|·|`.  JavaScript `Map` objects (insertion-ordered, with
get / set / delete) are modelled as association lists over `String` keys.
-/

set_option linter.unnecessarySeqFocus false
set_option linter.unusedTactic false
set_option linter.unreachableTactic false
set_option linter.unnecessarySimpa false

/-! ## Association lists modelling JavaScript `Map` -/

/-- `Map.get`: the value at the first matching key, if any. -/
def lookupA {α : Type} : List (String × α) → String → Option α
  | [], _ => none
  | (k, w) :: rest, u => if k = u then some w else lookupA rest u

/-- `Map.set`: update the first matching key in place, else append at the end
(JavaScript maps preserve insertion order). -/
def setA {α : Type} : List (String × α) → String → α → List (String × α)
  | [], u, v => [(u, v)]
  | (k, w) :: rest, u, v => if k = u then (k, v) :: rest else (k, w) :: setA rest u v

/-- `Map.delete`: remove the first matching key. -/
def deleteA {α : Type} : List (String × α) → String → List (String × α)
  | [], _ => []
  | (k, w) :: rest, u => if k = u then rest else (k, w) :: deleteA rest u

/-- The keys of the map, in order. -/
def keysA {α : Type} (m : List (String × α)) : List String := m.map (·.1)

/-- A rational number that is a whole number of cents. -/
def isCent (q : ℚ) : Prop := ∃ k : ℤ, q = k / 100

/-! ### Lemmas about the association-list operations -/

@[simp] theorem lookupA_nil {α : Type} (u : String) : lookupA ([] : List (String × α)) u = none :=
  rfl

@[simp] theorem lookupA_cons {α : Type} (k : String) (x : α) (m : List (String × α)) (u : String) :
    lookupA ((k, x) :: m) u = if k = u then some x else lookupA m u := rfl

@[simp] theorem keysA_nil {α : Type} : keysA ([] : List (String × α)) = [] := rfl

@[simp] theorem keysA_cons {α : Type} (p : String × α) (m : List (String × α)) :
    keysA (p :: m) = p.1 :: keysA m := rfl

theorem keysA_append {α : Type} (m m' : List (String × α)) :
    keysA (m ++ m') = keysA m ++ keysA m' := by
  simp [keysA]

theorem lookupA_setA {α : Type} (m : List (String × α)) (u : String) (v : α) (w : String) :
    lookupA (setA m u v) w = if w = u then some v else lookupA m w := by
  induction m with
  | nil => simp [setA, eq_comm]
  | cons p rest ih =>
    obtain ⟨k, x⟩ := p
    by_cases hk : k = u
    · subst hk
      by_cases hw : k = w
      · subst hw
        simp [setA]
      · have hw2 : ¬ w = k := fun h => hw h.symm
        simp [setA, hw, hw2]
    · by_cases hw : k = w
      · subst hw
        simp [setA, hk]
      · simp [setA, hk, hw, ih]

theorem mem_setA {α : Type} {m : List (String × α)} {u : String} {v : α} {p : String × α}
    (h : p ∈ setA m u v) : p ∈ m ∨ p = (u, v) := by
  induction m with
  | nil =>
    simp [setA] at h
    exact Or.inr h
  | cons q rest ih =>
    obtain ⟨k, x⟩ := q
    by_cases hk : k = u
    · subst hk
      simp [setA] at h
      rcases h with h1 | h1
      · exact Or.inr (by simp [h1])
      · exact Or.inl (List.mem_cons_of_mem _ h1)
    · simp [setA, hk] at h
      rcases h with h1 | h1
      · exact Or.inl (by simp [h1])
      · rcases ih h1 with h2 | h2
        · exact Or.inl (List.mem_cons_of_mem _ h2)
        · exact Or.inr h2

theorem setA_of_not_mem_keys {α : Type} {m : List (String × α)} {u : String}
    (h : u ∉ keysA m) (v : α) : setA m u v = m ++ [(u, v)] := by
  induction m with
  | nil => simp [setA]
  | cons q rest ih =>
    obtain ⟨k, x⟩ := q
    simp at h
    push_neg at h
    have hk : ¬ k = u := fun hh => h.1 hh.symm
    simp [setA, hk, ih h.2]

theorem keysA_setA_of_mem {α : Type} {m : List (String × α)} {u : String}
    (h : u ∈ keysA m) (v : α) : keysA (setA m u v) = keysA m := by
  induction m with
  | nil => simp at h
  | cons q rest ih =>
    obtain ⟨k, x⟩ := q
    by_cases hk : k = u
    · simp [setA, hk]
    · have hr : u ∈ keysA rest := by
        simp at h
        rcases h with h1 | h1
        · exact absurd h1.symm hk
        · exact h1
      simp [setA, hk, ih hr]

theorem keysA_setA_of_not_mem {α : Type} {m : List (String × α)} {u : String}
    (h : u ∉ keysA m) (v : α) : keysA (setA m u v) = keysA m ++ [u] := by
  rw [setA_of_not_mem_keys h, keysA_append]
  rfl

theorem nodup_keysA_setA {α : Type} {m : List (String × α)} {u : String} (v : α)
    (h : (keysA m).Nodup) : (keysA (setA m u v)).Nodup := by
  by_cases hu : u ∈ keysA m
  · rw [keysA_setA_of_mem hu]; exact h
  · rw [keysA_setA_of_not_mem hu]
    rw [List.nodup_append]
    refine ⟨h, List.nodup_singleton u, ?_⟩
    intro x hx hxu
    have hxu2 : x = u := by simpa using hxu
    exact hu (hxu2 ▸ hx)

theorem length_setA_of_mem {α : Type} {m : List (String × α)} {u : String}
    (h : u ∈ keysA m) (v : α) : (setA m u v).length = m.length := by
  have h1 : (keysA (setA m u v)).length = (keysA m).length := by
    rw [keysA_setA_of_mem h]
  simpa [keysA] using h1

theorem deleteA_sublist {α : Type} (m : List (String × α)) (u : String) :
    (deleteA m u).Sublist m := by
  induction m with
  | nil => simp [deleteA]
  | cons q rest ih =>
    obtain ⟨k, x⟩ := q
    by_cases hk : k = u
    · simp [deleteA, hk]
    · simpa [deleteA, hk] using ih.cons₂ (k, x)

theorem keysA_deleteA_sublist {α : Type} (m : List (String × α)) (u : String) :
    (keysA (deleteA m u)).Sublist (keysA m) :=
  (deleteA_sublist m u).map Prod.fst

theorem lookupA_deleteA_ne {α : Type} (m : List (String × α)) {u w : String}
    (h : w ≠ u) : lookupA (deleteA m u) w = lookupA m w := by
  induction m with
  | nil => simp [deleteA]
  | cons q rest ih =>
    obtain ⟨k, x⟩ := q
    by_cases hk : k = u
    · subst hk
      have hkw : ¬ k = w := fun hh => h (hh ▸ rfl)
      simp [deleteA, hkw]
    · simp [deleteA, hk, ih]

theorem lookupA_eq_none_of_not_mem {α : Type} {m : List (String × α)} {u : String}
    (h : u ∉ keysA m) : lookupA m u = none := by
  induction m with
  | nil => simp
  | cons q rest ih =>
    obtain ⟨k, x⟩ := q
    simp at h
    push_neg at h
    have hk : ¬ k = u := fun hh => h.1 hh.symm
    simp [hk, ih h.2]

theorem lookupA_deleteA_self {α : Type} {m : List (String × α)} {u : String}
    (h : (keysA m).Nodup) : lookupA (deleteA m u) u = none := by
  induction m with
  | nil => simp [deleteA]
  | cons q rest ih =>
    obtain ⟨k, x⟩ := q
    simp only [keysA_cons, List.nodup_cons] at h
    by_cases hk : k = u
    · subst hk
      simp only [deleteA, if_pos rfl]
      exact lookupA_eq_none_of_not_mem h.1
    · simp [deleteA, hk, ih h.2]

theorem mem_keysA_of_lookupA {α : Type} {m : List (String × α)} {u : String} {v : α}
    (h : lookupA m u = some v) : u ∈ keysA m := by
  by_contra hu
  rw [lookupA_eq_none_of_not_mem hu] at h
  exact Option.noConfusion h

theorem mem_of_lookupA_eq_some {α : Type} {m : List (String × α)} {u : String} {v : α}
    (h : lookupA m u = some v) : (u, v) ∈ m := by
  induction m with
  | nil => simp at h
  | cons q rest ih =>
    obtain ⟨k, x⟩ := q
    by_cases hk : k = u
    · subst hk
      simp at h
      simp [h]
    · simp [hk] at h
      exact List.mem_cons_of_mem _ (ih h)

theorem lookupA_eq_some_of_mem {α : Type} {m : List (String × α)} {u : String} {v : α}
    (hnd : (keysA m).Nodup) (h : (u, v) ∈ m) : lookupA m u = some v := by
  induction m with
  | nil => simp at h
  | cons q rest ih =>
    obtain ⟨k, x⟩ := q
    simp only [keysA_cons, List.nodup_cons] at hnd
    rcases List.mem_cons.mp h with h3 | h3
    · injection h3 with h4 h5
      subst h4
      subst h5
      simp
    · have hk : ¬ k = u := by
        rintro rfl
        exact hnd.1 (by simpa [keysA] using List.mem_map_of_mem Prod.fst h3)
      simp [hk, ih hnd.2 h3]

theorem length_deleteA_of_mem {α : Type} {m : List (String × α)} {u : String}
    (h : u ∈ keysA m) : (deleteA m u).length + 1 = m.length := by
  induction m with
  | nil => simp at h
  | cons q rest ih =>
    obtain ⟨k, x⟩ := q
    by_cases hk : k = u
    · simp [deleteA, hk]
    · have hr : u ∈ keysA rest := by
        simp at h
        rcases h with h1 | h1
        · exact absurd h1.symm hk
        · exact h1
      simp only [deleteA, if_neg hk, List.length_cons]
      rw [← ih hr]

/-- Building a map by repeated `set` with pairwise-distinct fresh keys just
lists the key-value pairs in order. -/
theorem foldl_setA_eq_map {β α : Type} (f : β → String) (g : β → α) :
    ∀ (bs : List β) (init : List (String × α)),
      (∀ b ∈ bs, f b ∉ keysA init) → (bs.map f).Nodup →
      bs.foldl (fun m b => setA m (f b) (g b)) init = init ++ bs.map (fun b => (f b, g b))
  | [], init, _, _ => by simp
  | b :: bs, init, hfresh, hnd => by
    have h1 : f b ∉ keysA init := hfresh b (by simp)
    have hnd2 : f b ∉ bs.map f ∧ (bs.map f).Nodup := by
      rw [← List.nodup_cons]
      simpa using hnd
    have h2 : ∀ b' ∈ bs, f b' ∉ keysA (setA init (f b) (g b)) := by
      intro b' hb'
      rw [keysA_setA_of_not_mem h1]
      intro hmem
      rcases List.mem_append.mp hmem with h3 | h3
      · exact hfresh b' (List.mem_cons_of_mem _ hb') h3
      · have h4 : f b' = f b := by simpa using h3
        exact hnd2.1 (h4 ▸ List.mem_map_of_mem f hb')
    calc (b :: bs).foldl (fun m b => setA m (f b) (g b)) init
        = bs.foldl (fun m b => setA m (f b) (g b)) (setA init (f b) (g b)) := by simp
      _ = setA init (f b) (g b) ++ bs.map (fun b => (f b, g b)) :=
          foldl_setA_eq_map f g bs _ h2 hnd2.2
      _ = init ++ (b :: bs).map (fun b => (f b, g b)) := by
          rw [setA_of_not_mem_keys h1]
          simp

/-! ### Cents -/

theorem isCent_add {a b : ℚ} (ha : isCent a) (hb : isCent b) : isCent (a + b) := by
  obtain ⟨j, rfl⟩ := ha; obtain ⟨k, rfl⟩ := hb
  exact ⟨j + k, by push_cast; ring⟩

theorem isCent_sub {a b : ℚ} (ha : isCent a) (hb : isCent b) : isCent (a - b) := by
  obtain ⟨j, rfl⟩ := ha; obtain ⟨k, rfl⟩ := hb
  exact ⟨j - k, by push_cast; ring⟩

theorem isCent_neg {a : ℚ} (ha : isCent a) : isCent (-a) := by
  obtain ⟨j, rfl⟩ := ha
  exact ⟨-j, by push_cast; ring⟩

theorem isCent_zero : isCent 0 := ⟨0, by norm_num⟩

theorem isCent_abs {a : ℚ} (ha : isCent a) : isCent |a| := by
  rcases abs_cases a with ⟨h, _⟩ | ⟨h, _⟩
  · rwa [h]
  · rw [h]; exact isCent_neg ha

theorem isCent_min {a b : ℚ} (ha : isCent a) (hb : isCent b) : isCent (min a b) := by
  rcases min_cases a b with ⟨h, _⟩ | ⟨h, _⟩ <;> rw [h] <;> assumption

theorem isCent_natCast_mul {a : ℚ} (n : ℕ) (ha : isCent a) : isCent ((n : ℚ) * a) := by
  obtain ⟨j, rfl⟩ := ha
  exact ⟨(n : ℤ) * j, by push_cast; ring⟩

/-- A positive whole number of cents is at least one cent. -/
theorem cent_le_of_pos {a : ℚ} (ha : isCent a) (h : 0 < a) : 1/100 ≤ a := by
  obtain ⟨k, rfl⟩ := ha
  have hk : 0 < k := by
    by_contra hk
    push_neg at hk
    have : (k : ℚ) ≤ 0 := by exact_mod_cast hk
    nlinarith
  have : (1 : ℤ) ≤ k := hk
  have : (1 : ℚ) ≤ (k : ℚ) := by exact_mod_cast this
  linarith

/-- A whole number of cents below one cent in absolute value is zero. -/
theorem cent_eq_zero_of_abs_lt {a : ℚ} (ha : isCent a) (h : |a| < 1/100) : a = 0 := by
  obtain ⟨k, rfl⟩ := ha
  have h1 : |(k : ℚ)| < 1 := by
    rw [abs_div] at h
    have : |(100 : ℚ)| = 100 := by norm_num
    rw [this] at h
    linarith
  have h2 : |k| < 1 := by exact_mod_cast h1
  have h3 : k = 0 := by
    rcases abs_cases k with ⟨he, hge⟩ | ⟨he, hlt⟩ <;> rw [he] at h2 <;> omega
  simp [h3]

theorem floor_cent_round (k : ℤ) : ⌊((k : ℚ) / 100) * 100 + 1/2⌋ = k := by
  have h1 : ((k : ℚ) / 100) * 100 + 1/2 = (k : ℚ) + 1/2 := by ring
  rw [h1, Int.floor_int_add]
  norm_num

/-! ## Balance Engine: `src/lib/balanceCalculations.ts` -/

namespace Balances

/-- One participant's entry in `splitDetails`.  In the source the `amount`
field is typed as required but the code guards against `undefined`, so it is
modelled as optional. -/
structure SplitDetail where
  amount : Option ℚ
  percentage : Option ℚ := none
  shares : Option ℚ := none
  isSettled : Option Bool := none
deriving DecidableEq

/-- Expense structure consumed by the Balance Engine. -/
structure ExpenseForBalance where
  expenseId : String
  amount : ℚ
  paidBy : String
  participants : List String
  splitDetails : List (String × SplitDetail)
deriving DecidableEq

/-- Balance result structure. -/
structure UserBalance where
  userId : String
  netAmount : ℚ
  totalPaid : ℚ
  totalOwed : ℚ
deriving DecidableEq

/-- `roundToTwo(value) = Math.round(value * 100) / 100`. -/
def roundToTwo (value : ℚ) : ℚ := (⌊value * 100 + 1/2⌋ : ℤ) / 100

/-- The `{paid, owed}` accumulator stored in the balance map. -/
structure PaidOwed where
  paid : ℚ
  owed : ℚ
deriving DecidableEq

/-- `expense.splitDetails[participantId]?.amount`: `none` when the entry is
absent (`!splitDetail`) or its amount is `undefined`. -/
def splitAmount : List (String × SplitDetail) → String → Option ℚ
  | [], _ => none
  | (u, d) :: rest, p => if u = p then d.amount else splitAmount rest p

/-- The body of `getBalance` followed by a field update: read the entry
(defaulting to `{paid: 0, owed: 0}`) and store the updated record. -/
def getBalanceThen (m : List (String × PaidOwed)) (userId : String)
    (f : PaidOwed → PaidOwed) : List (String × PaidOwed) :=
  setA m userId (f ((lookupA m userId).getD ⟨0, 0⟩))

/-- The `for (const participantId of expense.participants)` loop of
`calculateBalances`, generalised over the list it iterates. -/
def owedFoldAux (expense : ExpenseForBalance) (m : List (String × PaidOwed)) :
    List String → List (String × PaidOwed)
  | [] => m
  | participantId :: rest =>
    let m' :=
      match splitAmount expense.splitDetails participantId with
      | none =>
        -- Fallback: equal split if no split details
        getBalanceThen m participantId
          (fun b => { b with owed := b.owed + expense.amount / (expense.participants.length : ℚ) })
      | some a => getBalanceThen m participantId (fun b => { b with owed := b.owed + a })
    owedFoldAux expense m' rest

/-- The body of the `for (const expense of expenses)` loop. -/
def processExpense (m : List (String × PaidOwed)) (expense : ExpenseForBalance) :
    List (String × PaidOwed) :=
  if expense.amount ≤ 0 then m        -- skip invalid expenses
  else if expense.paidBy = "" ∨ expense.participants = [] then m  -- skip malformed expenses
  else
    -- Credit the payer
    let m1 := getBalanceThen m expense.paidBy fun b => { b with paid := b.paid + expense.amount }
    -- Debit each participant
    owedFoldAux expense m1 expense.participants

/-- `calculateBalances`: fold the expenses into the balance map, then emit a
`UserBalance` (with 2-decimal rounding) per user. -/
def calculateBalances (expenses : List ExpenseForBalance) : List (String × UserBalance) :=
  if expenses = [] then []
  else
    let balanceMap := expenses.foldl processExpense []
    balanceMap.map fun p =>
      (p.1, { userId := p.1
              netAmount := roundToTwo (p.2.paid - p.2.owed)
              totalPaid := roundToTwo p.2.paid
              totalOwed := roundToTwo p.2.owed })

/-- `validateBalanceSum`: the net amounts sum to zero within one cent. -/
def validateBalanceSum (balances : List (String × UserBalance)) : Bool :=
  let sum := balances.foldl (fun s p => s + p.2.netAmount) 0
  decide (|roundToTwo sum| < 1/100)

/-- The validity test of the two `continue` guards, as a single predicate:
an expense is processed iff its amount is positive, `paidBy` is non-empty
and `participants` is non-empty. -/
def isValidExpense (e : ExpenseForBalance) : Bool :=
  !decide (e.amount ≤ 0) && !(decide (e.paidBy = "") || decide (e.participants = []))

/-- The share debited to participant `p` by one iteration of the inner loop:
the explicit split amount when present, else the equal-split fallback. -/
def effShare (e : ExpenseForBalance) (p : String) : ℚ :=
  match splitAmount e.splitDetails p with
  | none => e.amount / (e.participants.length : ℚ)
  | some a => a

/-- Number of occurrences of `u` in a participant list (participants may in
principle repeat; each occurrence is debited). -/
def countOcc (u : String) : List String → ℕ
  | [] => 0
  | p :: ps => (if p = u then 1 else 0) + countOcc u ps

/-- What one expense adds to user `u`'s `paid` accumulator. -/
def paidContrib (e : ExpenseForBalance) (u : String) : ℚ :=
  if isValidExpense e then (if e.paidBy = u then e.amount else 0) else 0

/-- What one expense adds to user `u`'s `owed` accumulator. -/
def owedContrib (e : ExpenseForBalance) (u : String) : ℚ :=
  if isValidExpense e then (countOcc u e.participants : ℚ) * effShare e u else 0

/-- Whether processing `e` creates or updates user `u`'s map entry. -/
def touches (e : ExpenseForBalance) (u : String) : Bool :=
  isValidExpense e && (decide (e.paidBy = u) || decide (u ∈ e.participants))

/-- Total paid by `u` over a list of expenses. -/
def totalPaidOf (es : List ExpenseForBalance) (u : String) : ℚ :=
  (es.map (fun e => paidContrib e u)).sum

/-- Total owed by `u` over a list of expenses. -/
def totalOwedOf (es : List ExpenseForBalance) (u : String) : ℚ :=
  (es.map (fun e => owedContrib e u)).sum

/-- Whether any expense of the list touches user `u`. -/
def touchesAny (es : List ExpenseForBalance) (u : String) : Bool :=
  es.any (fun e => touches e u)

/-- The total of the (defined) share amounts recorded in `splitDetails`. -/
def splitDetailsSum (e : ExpenseForBalance) : ℚ :=
  (e.splitDetails.map (fun p => (p.2.amount).getD 0)).sum

/-! ### Characterisation of the balance fold -/

theorem countOcc_nil (u : String) : countOcc u [] = 0 := rfl

theorem countOcc_cons (u p : String) (ps : List String) :
    countOcc u (p :: ps) = (if p = u then 1 else 0) + countOcc u ps := rfl

theorem countOcc_eq_zero_of_not_mem {u : String} {ps : List String} (h : u ∉ ps) :
    countOcc u ps = 0 := by
  induction ps with
  | nil => rfl
  | cons p ps ih =>
    have hp : ¬ p = u := fun hh => h (by simp [hh])
    have hr : u ∉ ps := fun hh => h (List.mem_cons_of_mem _ hh)
    simp [countOcc_cons, hp, ih hr]

theorem lookupA_getBalanceThen (m : List (String × PaidOwed)) (u : String)
    (f : PaidOwed → PaidOwed) (w : String) :
    lookupA (getBalanceThen m u f) w =
      if w = u then some (f ((lookupA m u).getD ⟨0, 0⟩)) else lookupA m w :=
  lookupA_setA m u _ w

theorem owedFoldAux_cons (e : ExpenseForBalance) (m : List (String × PaidOwed))
    (p : String) (ps : List String) :
    owedFoldAux e m (p :: ps) =
      owedFoldAux e (getBalanceThen m p (fun b => { b with owed := b.owed + effShare e p })) ps := by
  rw [owedFoldAux, effShare]
  cases h : splitAmount e.splitDetails p <;> simp [h]

theorem lookupA_owedFoldAux (e : ExpenseForBalance) :
    ∀ (ps : List String) (m : List (String × PaidOwed)) (w : String),
      lookupA (owedFoldAux e m ps) w =
        match lookupA m w with
        | some b => some ⟨b.paid, b.owed + (countOcc w ps : ℚ) * effShare e w⟩
        | none =>
          if w ∈ ps then some ⟨0, (countOcc w ps : ℚ) * effShare e w⟩ else none
  | [], m, w => by
    cases hm : lookupA m w <;> simp [owedFoldAux, hm, countOcc_nil]
  | p :: ps, m, w => by
    rw [owedFoldAux_cons, lookupA_owedFoldAux e ps _ w]
    by_cases hw : w = p
    · subst hw
      rw [lookupA_getBalanceThen]
      cases hm : lookupA m w <;>
        simp [hm, countOcc_cons, PaidOwed.mk.injEq] <;> push_cast <;> ring
    · have hw2 : ¬ p = w := fun hh => hw hh.symm
      rw [lookupA_getBalanceThen, if_neg hw]
      cases hm : lookupA m w <;> simp [hm, countOcc_cons, hw2, hw]

theorem touches_false_contrib {e : ExpenseForBalance} {w : String}
    (h : touches e w = false) : paidContrib e w = 0 ∧ owedContrib e w = 0 := by
  by_cases hv : isValidExpense e
  · have h2 : ¬ e.paidBy = w ∧ w ∉ e.participants := by
      simp [touches, hv] at h
      exact h
    refine ⟨?_, ?_⟩
    · simp [paidContrib, hv, h2.1]
    · simp [owedContrib, hv, countOcc_eq_zero_of_not_mem h2.2]
  · simp at hv
    exact ⟨by simp [paidContrib, hv], by simp [owedContrib, hv]⟩

theorem lookupA_processExpense (m : List (String × PaidOwed)) (e : ExpenseForBalance)
    (w : String) :
    lookupA (processExpense m e) w =
      match lookupA m w with
      | some b => some ⟨b.paid + paidContrib e w, b.owed + owedContrib e w⟩
      | none => if touches e w then some ⟨paidContrib e w, owedContrib e w⟩ else none := by
  by_cases h1 : e.amount ≤ 0
  · have hv : isValidExpense e = false := by simp [isValidExpense, h1]
    rw [processExpense, if_pos h1]
    cases hm : lookupA m w <;>
      simp [hm, paidContrib, owedContrib, touches, hv]
  · by_cases h2 : e.paidBy = "" ∨ e.participants = []
    · have hv : isValidExpense e = false := by
        rcases h2 with h2 | h2 <;> simp [isValidExpense, h1, h2]
      rw [processExpense, if_neg h1, if_pos h2]
      cases hm : lookupA m w <;>
        simp [hm, paidContrib, owedContrib, touches, hv]
    · have hv : isValidExpense e = true := by
        push_neg at h2
        simp [isValidExpense, h1, h2.1, h2.2]
      rw [processExpense, if_neg h1, if_neg h2]
      rw [lookupA_owedFoldAux e e.participants _ w]
      rw [lookupA_getBalanceThen]
      by_cases hw : w = e.paidBy
      · have hw2 : e.paidBy = w := hw.symm
        rw [if_pos hw]
        cases hm : lookupA m w
        · subst hw
          simp [hm, paidContrib, owedContrib, touches, hv, hw2]
        · subst hw
          simp [hm, paidContrib, owedContrib, touches, hv, hw2]
      · have hw2 : ¬ e.paidBy = w := fun hh => hw hh.symm
        rw [if_neg hw]
        by_cases hp : w ∈ e.participants
        · cases hm : lookupA m w <;>
            simp [hm, paidContrib, owedContrib, touches, hv, hw2, hp]
        · have hc : countOcc w e.participants = 0 := countOcc_eq_zero_of_not_mem hp
          cases hm : lookupA m w <;>
            simp [hm, paidContrib, owedContrib, touches, hv, hw2, hp, hc]

theorem lookupA_foldl_processExpense :
    ∀ (es : List ExpenseForBalance) (m : List (String × PaidOwed)) (w : String),
      lookupA (es.foldl processExpense m) w =
        match lookupA m w with
        | some b => some ⟨b.paid + totalPaidOf es w, b.owed + totalOwedOf es w⟩
        | none =>
          if touchesAny es w then some ⟨totalPaidOf es w, totalOwedOf es w⟩ else none
  | [], m, w => by
    cases hm : lookupA m w <;> simp [hm, totalPaidOf, totalOwedOf, touchesAny]
  | e :: es, m, w => by
    have hstep : (e :: es).foldl processExpense m = es.foldl processExpense (processExpense m e) :=
      by simp
    rw [hstep, lookupA_foldl_processExpense es _ w, lookupA_processExpense]
    cases hm : lookupA m w
    · by_cases ht : touches e w
      · simp [hm, ht, totalPaidOf, totalOwedOf, touchesAny]
      · have ht2 : touches e w = false := by simpa using ht
        obtain ⟨hp0, ho0⟩ := touches_false_contrib ht2
        simp [hm, ht2, totalPaidOf, totalOwedOf, touchesAny, hp0, ho0]
    · simp [hm, totalPaidOf, totalOwedOf, touchesAny, add_assoc]

theorem lookupA_map_balance :
    ∀ (m : List (String × PaidOwed)) (w : String),
      lookupA (m.map (fun p => (p.1,
          ({ userId := p.1, netAmount := roundToTwo (p.2.paid - p.2.owed),
             totalPaid := roundToTwo p.2.paid,
             totalOwed := roundToTwo p.2.owed } : UserBalance)))) w =
        (lookupA m w).map (fun b =>
          ({ userId := w, netAmount := roundToTwo (b.paid - b.owed),
             totalPaid := roundToTwo b.paid,
             totalOwed := roundToTwo b.owed } : UserBalance))
  | [], _ => rfl
  | (k, x) :: m, w => by
    by_cases hk : k = w
    · subst hk
      simp
    · simp [hk, lookupA_map_balance m w]

/-- The full input / output characterisation of `calculateBalances`, as a
mapping: a user has an entry iff some processed expense touches them, and the
entry holds their rounded totals. -/
theorem lookupA_calculateBalances (es : List ExpenseForBalance) (w : String) :
    lookupA (calculateBalances es) w =
      if touchesAny es w then
        some ⟨w, roundToTwo (totalPaidOf es w - totalOwedOf es w),
              roundToTwo (totalPaidOf es w), roundToTwo (totalOwedOf es w)⟩
      else none := by
  by_cases hes : es = []
  · subst hes
    simp [calculateBalances, touchesAny]
  · rw [calculateBalances, if_neg hes]
    rw [lookupA_map_balance, lookupA_foldl_processExpense es [] w]
    simp only [lookupA_nil]
    by_cases ht : touchesAny es w <;> simp [ht]

/-! ### Conservation: the unrounded nets of the balance map sum to the
per-expense discrepancies -/

/-- Sum of `paid - owed` over the accumulator map. -/
def sumPO (m : List (String × PaidOwed)) : ℚ := (m.map (fun p => p.2.paid - p.2.owed)).sum

/-- What one expense contributes to the total of `paid - owed`: its amount
minus the shares actually debited. -/
def netContribution (e : ExpenseForBalance) : ℚ :=
  if isValidExpense e then e.amount - (e.participants.map (effShare e)).sum else 0

/-- Every accumulator in the map is a whole number of cents. -/
def centPO (m : List (String × PaidOwed)) : Prop :=
  ∀ p ∈ m, isCent p.2.paid ∧ isCent p.2.owed

theorem sumPO_nil : sumPO [] = 0 := rfl

theorem sumPO_cons (p : String × PaidOwed) (m : List (String × PaidOwed)) :
    sumPO (p :: m) = (p.2.paid - p.2.owed) + sumPO m := by simp [sumPO]

theorem sumPO_getBalanceThen (u : String) (f : PaidOwed → PaidOwed) (d : ℚ)
    (hf : ∀ b, (f b).paid - (f b).owed = b.paid - b.owed + d) :
    ∀ m : List (String × PaidOwed), sumPO (getBalanceThen m u f) = sumPO m + d
  | [] => by
    have h0 := hf ⟨0, 0⟩
    simp [getBalanceThen, setA, sumPO] at h0 ⊢
    linarith
  | (k, x) :: rest => by
    by_cases hk : k = u
    · subst hk
      have hstep : getBalanceThen ((k, x) :: rest) k f = (k, f x) :: rest := by
        simp [getBalanceThen, setA]
      rw [hstep, sumPO_cons, sumPO_cons, hf x]
      ring
    · have hstep : getBalanceThen ((k, x) :: rest) u f = (k, x) :: getBalanceThen rest u f := by
        simp [getBalanceThen, setA, hk]
      rw [hstep, sumPO_cons, sumPO_cons, sumPO_getBalanceThen u f d hf rest]
      ring

theorem sumPO_owedFoldAux (e : ExpenseForBalance) :
    ∀ (ps : List String) (m : List (String × PaidOwed)),
      sumPO (owedFoldAux e m ps) = sumPO m - (ps.map (effShare e)).sum
  | [], m => by simp [owedFoldAux]
  | p :: ps, m => by
    rw [owedFoldAux_cons, sumPO_owedFoldAux e ps]
    rw [sumPO_getBalanceThen p _ (-(effShare e p)) (fun b => by simp; ring)]
    simp
    ring

theorem sumPO_processExpense (m : List (String × PaidOwed)) (e : ExpenseForBalance) :
    sumPO (processExpense m e) = sumPO m + netContribution e := by
  by_cases h1 : e.amount ≤ 0
  · have hv : isValidExpense e = false := by simp [isValidExpense, h1]
    rw [processExpense, if_pos h1]
    simp [netContribution, hv]
  · by_cases h2 : e.paidBy = "" ∨ e.participants = []
    · have hv : isValidExpense e = false := by
        rcases h2 with h2 | h2 <;> simp [isValidExpense, h1, h2]
      rw [processExpense, if_neg h1, if_pos h2]
      simp [netContribution, hv]
    · have hv : isValidExpense e = true := by
        push_neg at h2
        simp [isValidExpense, h1, h2.1, h2.2]
      rw [processExpense, if_neg h1, if_neg h2]
      rw [sumPO_owedFoldAux e e.participants]
      rw [sumPO_getBalanceThen e.paidBy _ e.amount (fun b => by simp; ring)]
      simp [netContribution, hv]
      ring

theorem sumPO_foldl :
    ∀ (es : List ExpenseForBalance) (m : List (String × PaidOwed)),
      sumPO (es.foldl processExpense m) = sumPO m + (es.map netContribution).sum
  | [], m => by simp
  | e :: es, m => by
    have hstep : (e :: es).foldl processExpense m = es.foldl processExpense (processExpense m e) :=
      by simp
    rw [hstep, sumPO_foldl es _, sumPO_processExpense]
    simp
    ring

theorem centPO_getBalanceThen {m : List (String × PaidOwed)} (u : String)
    {f : PaidOwed → PaidOwed} (hm : centPO m)
    (hf : ∀ b, isCent b.paid → isCent b.owed → isCent (f b).paid ∧ isCent (f b).owed) :
    centPO (getBalanceThen m u f) := by
  intro p hp
  rcases mem_setA hp with h | h
  · exact hm p h
  · have hold : isCent ((lookupA m u).getD ⟨0, 0⟩).paid ∧
        isCent ((lookupA m u).getD ⟨0, 0⟩).owed := by
      cases hlk : lookupA m u with
      | none =>
        simp only [Option.getD_none]
        exact ⟨isCent_zero, isCent_zero⟩
      | some b =>
        simp only [Option.getD_some]
        exact hm (u, b) (mem_of_lookupA_eq_some hlk)
    rw [h]
    exact hf _ hold.1 hold.2

theorem centPO_owedFoldAux (e : ExpenseForBalance) :
    ∀ (ps : List String) (m : List (String × PaidOwed)),
      centPO m → (∀ p ∈ ps, isCent (effShare e p)) → centPO (owedFoldAux e m ps)
  | [], m, hm, _ => by simpa [owedFoldAux] using hm
  | p :: ps, m, hm, hps => by
    rw [owedFoldAux_cons]
    refine centPO_owedFoldAux e ps _ ?_ (fun q hq => hps q (List.mem_cons_of_mem _ hq))
    exact centPO_getBalanceThen p hm
      (fun b hbp hbo => ⟨hbp, isCent_add hbo (hps p (by simp))⟩)

theorem centPO_processExpense {m : List (String × PaidOwed)} {e : ExpenseForBalance}
    (hm : centPO m)
    (he : isValidExpense e = true →
      isCent e.amount ∧ ∀ p ∈ e.participants, isCent (effShare e p)) :
    centPO (processExpense m e) := by
  by_cases h1 : e.amount ≤ 0
  · rwa [processExpense, if_pos h1]
  · by_cases h2 : e.paidBy = "" ∨ e.participants = []
    · rwa [processExpense, if_neg h1, if_pos h2]
    · have hv : isValidExpense e = true := by
        push_neg at h2
        simp [isValidExpense, h1, h2.1, h2.2]
      rw [processExpense, if_neg h1, if_neg h2]
      refine centPO_owedFoldAux e e.participants _ ?_ (he hv).2
      exact centPO_getBalanceThen e.paidBy hm
        (fun b hbp hbo => ⟨isCent_add hbp (he hv).1, hbo⟩)

theorem centPO_foldl :
    ∀ (es : List ExpenseForBalance) (m : List (String × PaidOwed)),
      centPO m →
      (∀ e ∈ es, isValidExpense e = true →
        isCent e.amount ∧ ∀ p ∈ e.participants, isCent (effShare e p)) →
      centPO (es.foldl processExpense m)
  | [], m, hm, _ => by simpa using hm
  | e :: es, m, hm, hes => by
    have hstep : (e :: es).foldl processExpense m = es.foldl processExpense (processExpense m e) :=
      by simp
    rw [hstep]
    exact centPO_foldl es _ (centPO_processExpense hm (hes e (by simp)))
      (fun e2 he2 => hes e2 (List.mem_cons_of_mem _ he2))

theorem roundToTwo_eq_self {q : ℚ} (h : isCent q) : roundToTwo q = q := by
  obtain ⟨k, rfl⟩ := h
  rw [roundToTwo, floor_cent_round]

theorem foldl_add_net (l : List (String × UserBalance)) :
    ∀ a : ℚ, l.foldl (fun s p => s + p.2.netAmount) a = a + (l.map (fun p => p.2.netAmount)).sum := by
  induction l with
  | nil => intro a; simp
  | cons p rest ih =>
    intro a
    simp only [List.foldl_cons, List.map_cons, List.sum_cons, ih]
    ring

/-- Conservation helper: with exact, cent-aligned shares the validator
accepts the computed balances. -/
theorem validateBalanceSum_exact (es : List ExpenseForBalance)
    (h : ∀ e ∈ es, isValidExpense e = true →
      isCent e.amount ∧ (∀ p ∈ e.participants, isCent (effShare e p)) ∧
      (e.participants.map (effShare e)).sum = e.amount) :
    validateBalanceSum (calculateBalances es) = true := by
  have habs : |(0 : ℚ)| < 1/100 := by norm_num
  by_cases hes : es = []
  · subst hes
    have h0 : calculateBalances [] = [] := by rw [calculateBalances]; simp
    rw [h0, validateBalanceSum]
    simp only [List.foldl_nil, decide_eq_true_eq]
    rw [roundToTwo_eq_self isCent_zero]
    exact habs
  · rw [calculateBalances, if_neg hes]
    have hcent : centPO (es.foldl processExpense []) :=
      centPO_foldl es [] (by intro p hp; simp at hp)
        (fun e he hv => ⟨(h e he hv).1, (h e he hv).2.1⟩)
    have hsum : sumPO (es.foldl processExpense []) = 0 := by
      rw [sumPO_foldl es []]
      have hz : ∀ x ∈ es.map netContribution, x = 0 := by
        intro x hx
        obtain ⟨e, he, rfl⟩ := List.mem_map.mp hx
        by_cases hv : isValidExpense e
        · simp [netContribution, hv, (h e he hv).2.2]
        · simp only [Bool.not_eq_true] at hv
          simp [netContribution, hv]
      rw [List.sum_eq_zero hz, sumPO_nil, add_zero]
    rw [validateBalanceSum]
    simp only [decide_eq_true_eq, foldl_add_net, zero_add, List.map_map]
    have hpt : (es.foldl processExpense []).map
          ((fun p : String × UserBalance => p.2.netAmount) ∘
            (fun p : String × PaidOwed => (p.1,
              ({ userId := p.1, netAmount := roundToTwo (p.2.paid - p.2.owed),
                 totalPaid := roundToTwo p.2.paid,
                 totalOwed := roundToTwo p.2.owed } : UserBalance)))) =
        (es.foldl processExpense []).map (fun p => p.2.paid - p.2.owed) := by
      refine List.map_congr_left ?_
      intro p hp
      exact roundToTwo_eq_self (isCent_sub (hcent p hp).1 (hcent p hp).2)
    rw [hpt]
    have hsum2 : ((es.foldl processExpense []).map (fun p => p.2.paid - p.2.owed)).sum = 0 := hsum
    rw [hsum2, roundToTwo_eq_self isCent_zero]
    simpa using habs

/-! ### Skipping malformed expenses -/

theorem processExpense_invalid {e : ExpenseForBalance} (h : isValidExpense e = false)
    (m : List (String × PaidOwed)) : processExpense m e = m := by
  rw [processExpense]
  by_cases h1 : e.amount ≤ 0
  · rw [if_pos h1]
  · by_cases h2 : e.paidBy = "" ∨ e.participants = []
    · rw [if_neg h1, if_pos h2]
    · exfalso
      push_neg at h2
      have : isValidExpense e = true := by simp [isValidExpense, h1, h2.1, h2.2]
      rw [this] at h
      exact Bool.noConfusion h

theorem foldl_processExpense_filter :
    ∀ (es : List ExpenseForBalance) (m : List (String × PaidOwed)),
      es.foldl processExpense m = (es.filter isValidExpense).foldl processExpense m
  | [], m => rfl
  | e :: es, m => by
    by_cases hv : isValidExpense e
    · simp only [List.foldl_cons, List.filter_cons, hv, if_pos]
      exact foldl_processExpense_filter es _
    · simp only [Bool.not_eq_true] at hv
      simp only [List.foldl_cons, List.filter_cons, hv, Bool.false_eq_true, if_neg,
        processExpense_invalid hv]
      exact foldl_processExpense_filter es m

/-! ### Permutation invariance helpers -/

theorem any_perm {α : Type} {l1 l2 : List α} (h : l1.Perm l2) (p : α → Bool) :
    l1.any p = l2.any p := by
  cases h1 : l1.any p <;> cases h2 : l2.any p
  · rfl
  · rw [List.any_eq_true] at h2
    obtain ⟨x, hx, hpx⟩ := h2
    have h3 := List.any_eq_true.mpr ⟨x, h.mem_iff.mpr hx, hpx⟩
    rw [h1] at h3
    exact Bool.noConfusion h3
  · rw [List.any_eq_true] at h1
    obtain ⟨x, hx, hpx⟩ := h1
    have h3 := List.any_eq_true.mpr ⟨x, h.mem_iff.mp hx, hpx⟩
    rw [h2] at h3
    exact Bool.noConfusion h3
  · rfl

theorem totalPaidOf_perm {es1 es2 : List ExpenseForBalance} (h : es1.Perm es2) (u : String) :
    totalPaidOf es1 u = totalPaidOf es2 u :=
  (h.map _).sum_eq

theorem totalOwedOf_perm {es1 es2 : List ExpenseForBalance} (h : es1.Perm es2) (u : String) :
    totalOwedOf es1 u = totalOwedOf es2 u :=
  (h.map _).sum_eq

theorem touchesAny_perm {es1 es2 : List ExpenseForBalance} (h : es1.Perm es2) (u : String) :
    touchesAny es1 u = touchesAny es2 u :=
  any_perm h _

end Balances

/-! ## Settlement Planner: `src/unnamed/part_002` (settlement optimization) -/

namespace Settlements

/-- User balance structure (the planner's own two-field interface). -/
structure UserBalance where
  userId : String
  netAmount : ℚ
deriving DecidableEq

/-- Settlement transaction structure. -/
structure Settlement where
  fromUser : String
  toUser : String
  amount : ℚ
deriving DecidableEq

/-- `roundToTwo(value) = Math.round(value * 100) / 100` (duplicated in the
source file, duplicated here). -/
def roundToTwo (value : ℚ) : ℚ := (⌊value * 100 + 1/2⌋ : ℤ) / 100

/-- A `{userId, amount}` working entry of the creditor / debtor lists. -/
structure WorkingEntry where
  userId : String
  amount : ℚ
deriving DecidableEq

/-- One step of a stable descending-by-amount insertion sort: `x` goes in
front of the first strictly smaller entry, after all entries with an equal
or larger amount (so ties keep their original order, like the stable
JavaScript `sort((a, b) => b.amount - a.amount)`). -/
def insertDesc (x : WorkingEntry) : List WorkingEntry → List WorkingEntry
  | [] => [x]
  | y :: ys => if y.amount ≤ x.amount then x :: y :: ys else y :: insertDesc x ys

/-- Stable sort, descending by amount. -/
def sortDesc (l : List WorkingEntry) : List WorkingEntry := l.foldr insertDesc []

/-- The `while (i < creditors.length && j < debtors.length)` matching loop.
The two cursors are modelled by consuming the lists from the front; the head
entry carries the current remaining amount.  `fuel` bounds the number of
iterations; since every iteration discharges the creditor head, the debtor
head, or both, `creditors.length + debtors.length` iterations always
suffice, which is the fuel `minimizeSettlements` supplies. -/
def settleLoop : ℕ → List WorkingEntry → List WorkingEntry → List Settlement → List Settlement
  | 0, _, _, settlements => settlements
  | _ + 1, [], _, settlements => settlements
  | _ + 1, _ :: _, [], settlements => settlements
  | fuel + 1, creditor :: cs, debtor :: ds, settlements =>
    -- Settle the minimum of what creditor is owed and debtor owes
    let settlementAmount := min creditor.amount debtor.amount
    let settlements' := settlements ++
      [{ fromUser := debtor.userId, toUser := creditor.userId
         amount := roundToTwo settlementAmount }]
    let ca := creditor.amount - settlementAmount
    let da := debtor.amount - settlementAmount
    if ca < 1/100 then
      -- creditor fully settled: advance the creditor cursor
      if da < 1/100 then settleLoop fuel cs ds settlements'
      else settleLoop fuel cs ({ userId := debtor.userId, amount := da } :: ds) settlements'
    else
      -- here `ca ≥ 1/100 > 0` forces `settlementAmount = debtor.amount`, so
      -- `da = 0 < 0.01` and the source's debtor-advance test always fires;
      -- the source's fourth combination (neither cursor advances) is
      -- unreachable because `settlementAmount` is the minimum of the two
      settleLoop fuel ({ userId := creditor.userId, amount := ca } :: cs) ds settlements'

/-- `minimizeSettlements`: greedy largest-first matching. -/
def minimizeSettlements (balances : List UserBalance) : List Settlement :=
  -- Edge case: empty or single user
  if balances.length ≤ 1 then []
  -- Edge case: all balances are zero
  else if balances.all (fun b => decide (b.netAmount = 0)) then []
  else
    -- Separate creditors and debtors, sorted descending by amount
    let creditors := sortDesc ((balances.filter (fun b => decide (0 < b.netAmount))).map
      (fun b => { userId := b.userId, amount := b.netAmount }))
    let debtors := sortDesc ((balances.filter (fun b => decide (b.netAmount < 0))).map
      (fun b => { userId := b.userId, amount := |b.netAmount| }))
    settleLoop (creditors.length + debtors.length) creditors debtors []

/-- The initial `finalBalances` map of `validateSettlements`. -/
def initialBalances (balances : List UserBalance) : List (String × ℚ) :=
  balances.foldl (fun m b => setA m b.userId b.netAmount) []

/-- The settlement-replay loop of `validateSettlements`: the payer's balance
goes up by the paid amount, the receiver's goes down. -/
def applySettlements (m : List (String × ℚ)) (settlements : List Settlement) :
    List (String × ℚ) :=
  settlements.foldl
    (fun m s =>
      let fromBalance := (lookupA m s.fromUser).getD 0
      let toBalance := (lookupA m s.toUser).getD 0
      setA (setA m s.fromUser (fromBalance + s.amount)) s.toUser (toBalance - s.amount))
    m

/-- `validateSettlements`: replay the settlements against the balances and
check that every final balance is within one cent of zero. -/
def validateSettlements (balances : List UserBalance) (settlements : List Settlement) : Bool :=
  (applySettlements (initialBalances balances) settlements).all
    (fun p => decide (|p.2| ≤ 1/100))

/-- `getTotalSettlementAmount`. -/
def getTotalSettlementAmount (settlements : List Settlement) : ℚ :=
  roundToTwo (settlements.foldl (fun sum s => sum + s.amount) 0)

/-- `getTheoreticalMinimum`: `max(0, countOfNonZeroBalances − 1)` where
non-zero means `|netAmount| > 0.01`. -/
def getTheoreticalMinimum (balances : List UserBalance) : ℤ :=
  let nonZeroCount := (balances.filter (fun b => decide (1/100 < |b.netAmount|))).length
  max 0 ((nonZeroCount : ℤ) - 1)

/-- `isOptimalSettlement`. -/
def isOptimalSettlement (balances : List UserBalance) (settlements : List Settlement) : Bool :=
  decide ((settlements.length : ℤ) = getTheoreticalMinimum balances)

/-- One step of the max-creditor scan: replace the running maximum when the
entry's amount is strictly larger (the JS scan starts from `-Infinity`, so
the first entry always replaces the initial value). -/
def maxCreditorStep (acc : Option (String × ℚ)) (p : String × ℚ) : Option (String × ℚ) :=
  match acc with
  | none => some p
  | some (u, a) => if a < p.2 then some p else some (u, a)

/-- The max-creditor scan of `minimizeSettlementsAlternative`: the first
entry with the largest amount. -/
def findMaxCreditor (entries : List (String × ℚ)) : Option (String × ℚ) :=
  entries.foldl maxCreditorStep none

/-- One step of the max-debtor scan: entries with a negative amount compete
by absolute amount, which is what the scan stores. -/
def maxDebtorStep (acc : Option (String × ℚ)) (p : String × ℚ) : Option (String × ℚ) :=
  if p.2 < 0 then
    match acc with
    | none => some (p.1, |p.2|)
    | some (u, a) => if a < |p.2| then some (p.1, |p.2|) else some (u, a)
  else acc

/-- The max-debtor scan: the first negative entry of largest absolute
amount. -/
def findMaxDebtor (entries : List (String × ℚ)) : Option (String × ℚ) :=
  entries.foldl maxDebtorStep none

/-- The map update of one iteration of the vertex-merging loop: settle
`min ca da` between creditor `cu` and debtor `da`'s owner `du`, then delete
entries whose new amount is below one cent and store the others back. -/
def altNext (amounts : List (String × ℚ)) (maxCreditor : String) (maxCreditorAmount : ℚ)
    (maxDebtor : String) (maxDebtorAmount : ℚ) : List (String × ℚ) :=
  let settlementAmount := min maxCreditorAmount maxDebtorAmount
  let newCreditorAmount := maxCreditorAmount - settlementAmount
  let newDebtorAmount := -maxDebtorAmount + settlementAmount
  let amounts1 :=
    if |newCreditorAmount| < 1/100 then deleteA amounts maxCreditor
    else setA amounts maxCreditor newCreditorAmount
  if |newDebtorAmount| < 1/100 then deleteA amounts1 maxDebtor
  else setA amounts1 maxDebtor newDebtorAmount

/-- The `while (amounts.size > 1)` loop of `minimizeSettlementsAlternative`.
`fuel` bounds the iteration count; whenever the chosen creditor and debtor
are distinct keys, the iteration deletes at least one entry, so the fuel
passed by `minimizeSettlementsAlternative` is more than enough on the
inputs analysed here.  The source's `if (!maxCreditor || !maxDebtor) break`
tests string truthiness: it fires when the debtor scan found no negative
entry (`maxDebtor` keeps its initial `''`), modelled by `findMaxDebtor`
returning `none`, and also when the found maximum's userId itself is the
empty string, which is falsy in JavaScript — hence the explicit
empty-string test below. -/
def altLoop : ℕ → List (String × ℚ) → List Settlement → List Settlement
  | 0, _, settlements => settlements
  | fuel + 1, amounts, settlements =>
    if amounts.length ≤ 1 then settlements
    else
      match findMaxCreditor amounts, findMaxDebtor amounts with
      | some (maxCreditor, maxCreditorAmount), some (maxDebtor, maxDebtorAmount) =>
        if maxCreditor = "" ∨ maxDebtor = "" then settlements
        else
          altLoop fuel (altNext amounts maxCreditor maxCreditorAmount maxDebtor maxDebtorAmount)
            (settlements ++
              [{ fromUser := maxDebtor, toUser := maxCreditor
                 amount := roundToTwo (min maxCreditorAmount maxDebtorAmount) }])
      | _, _ => settlements   -- `if (!maxCreditor || !maxDebtor) break`

/-- `minimizeSettlementsAlternative`: vertex merging over a mutable map. -/
def minimizeSettlementsAlternative (balances : List UserBalance) : List Settlement :=
  let nonZero := balances.filter (fun b => decide (1/100 < |b.netAmount|))
  if nonZero.length = 0 then []
  else
    let amounts := nonZero.foldl (fun m b => setA m b.userId b.netAmount) []
    altLoop (2 * nonZero.length + 2) amounts []

/-! ### Bookkeeping views of working lists and settlement plans -/

/-- Total remaining amount of a working list. -/
def entrySum (entries : List WorkingEntry) : ℚ := (entries.map (·.amount)).sum

/-- Amount carried for user `u` by a working list (summed over entries). -/
def creditOf (entries : List WorkingEntry) (u : String) : ℚ :=
  (entries.map (fun c => if c.userId = u then c.amount else 0)).sum

/-- Total user `u` pays in a plan. -/
def sentBy (settlements : List Settlement) (u : String) : ℚ :=
  (settlements.map (fun s => if s.fromUser = u then s.amount else 0)).sum

/-- Total user `u` receives in a plan. -/
def receivedBy (settlements : List Settlement) (u : String) : ℚ :=
  (settlements.map (fun s => if s.toUser = u then s.amount else 0)).sum

theorem entrySum_nil : entrySum [] = 0 := rfl

theorem entrySum_cons (c : WorkingEntry) (cs : List WorkingEntry) :
    entrySum (c :: cs) = c.amount + entrySum cs := by simp [entrySum]

theorem creditOf_nil (u : String) : creditOf [] u = 0 := rfl

theorem creditOf_cons (c : WorkingEntry) (cs : List WorkingEntry) (u : String) :
    creditOf (c :: cs) u = (if c.userId = u then c.amount else 0) + creditOf cs u := by
  simp [creditOf]

theorem sentBy_append (s1 s2 : List Settlement) (u : String) :
    sentBy (s1 ++ s2) u = sentBy s1 u + sentBy s2 u := by
  simp [sentBy]

theorem receivedBy_append (s1 s2 : List Settlement) (u : String) :
    receivedBy (s1 ++ s2) u = receivedBy s1 u + receivedBy s2 u := by
  simp [receivedBy]

theorem sentBy_single (s : Settlement) (u : String) :
    sentBy [s] u = if s.fromUser = u then s.amount else 0 := by
  simp [sentBy]

theorem receivedBy_single (s : Settlement) (u : String) :
    receivedBy [s] u = if s.toUser = u then s.amount else 0 := by
  simp [receivedBy]

theorem roundTwo_eq_self {q : ℚ} (h : isCent q) : roundToTwo q = q := by
  obtain ⟨k, rfl⟩ := h
  rw [roundToTwo, floor_cent_round]

/-- An all-nonnegative working list with zero total is empty when its entries
are all at least one cent. -/
theorem entries_empty_of_sum_zero {l : List WorkingEntry}
    (hpos : ∀ c ∈ l, 1/100 ≤ c.amount) (hsum : entrySum l = 0) : l = [] := by
  cases l with
  | nil => rfl
  | cons c cs =>
    exfalso
    have h1 : 1/100 ≤ c.amount := hpos c (by simp)
    have h2 : 0 ≤ entrySum cs := by
      have : ∀ x ∈ cs.map (·.amount), 0 ≤ x := by
        intro x hx
        obtain ⟨e, he, rfl⟩ := List.mem_map.mp hx
        have := hpos e (List.mem_cons_of_mem _ he)
        linarith
      exact List.sum_nonneg this
    rw [entrySum_cons] at hsum
    linarith

/-! ### Sorting: permutation facts -/

theorem insertDesc_perm (x : WorkingEntry) :
    ∀ l : List WorkingEntry, (insertDesc x l).Perm (x :: l)
  | [] => List.Perm.refl _
  | y :: ys => by
    by_cases h : y.amount ≤ x.amount
    · rw [insertDesc, if_pos h]
    · rw [insertDesc, if_neg h]
      exact ((insertDesc_perm x ys).cons y).trans (List.Perm.swap x y ys)

theorem sortDesc_perm : ∀ l : List WorkingEntry, (sortDesc l).Perm l
  | [] => List.Perm.refl _
  | x :: l => by
    rw [sortDesc, List.foldr_cons]
    exact (insertDesc_perm x _).trans ((sortDesc_perm l).cons x)

/-! ### The greedy loop: iteration bound -/

theorem settleLoop_nil_left (fuel : ℕ) (ds : List WorkingEntry) (acc : List Settlement) :
    settleLoop fuel [] ds acc = acc := by
  cases fuel <;> rfl

theorem settleLoop_nil_right (fuel : ℕ) (cs : List WorkingEntry) (acc : List Settlement) :
    settleLoop fuel cs [] acc = acc := by
  cases fuel <;> cases cs <;> rfl

theorem settleLoop_zero (cs ds : List WorkingEntry) (acc : List Settlement) :
    settleLoop 0 cs ds acc = acc := rfl

/-- Each loop iteration emits one settlement and discharges the creditor
head, the debtor head, or both, so a run starting from nonempty lists emits
strictly fewer settlements than the total number of working entries. -/
theorem settleLoop_length :
    ∀ (fuel : ℕ) (cs ds : List WorkingEntry) (acc : List Settlement),
      cs ≠ [] → ds ≠ [] →
      (settleLoop fuel cs ds acc).length + 1 ≤ acc.length + cs.length + ds.length
  | 0, cs, ds, acc, hcs, hds => by
    rw [settleLoop_zero]
    cases cs with
    | nil => exact absurd rfl hcs
    | cons c cs =>
      cases ds with
      | nil => exact absurd rfl hds
      | cons d ds => simp; omega
  | fuel + 1, [], ds, acc, hcs, _ => absurd rfl hcs
  | fuel + 1, c :: cs, [], acc, _, hds => absurd rfl hds
  | fuel + 1, c :: cs, d :: ds, acc, _, _ => by
    rw [settleLoop]
    set s2 := acc ++
      [{ fromUser := d.userId, toUser := c.userId
         amount := roundToTwo (min c.amount d.amount) }] with hs2
    have hlen : s2.length = acc.length + 1 := by simp [hs2]
    by_cases h1 : c.amount - min c.amount d.amount < 1/100
    · by_cases h2 : d.amount - min c.amount d.amount < 1/100
      · rw [if_pos h1, if_pos h2]
        by_cases hcs2 : cs = []
        · subst hcs2
          rw [settleLoop_nil_left]
          simp [hlen] <;> omega
        · by_cases hds2 : ds = []
          · subst hds2
            rw [settleLoop_nil_right]
            simp [hlen] <;> omega
          · have := settleLoop_length fuel cs ds s2 hcs2 hds2
            simp at this ⊢
            omega
      · rw [if_pos h1, if_neg h2]
        by_cases hcs2 : cs = []
        · subst hcs2
          rw [settleLoop_nil_left]
          simp [hlen]
        · have := settleLoop_length fuel cs
            ({ userId := d.userId, amount := d.amount - min c.amount d.amount } :: ds) s2 hcs2
            (by simp)
          simp at this ⊢
          omega
    · rw [if_neg h1]
      by_cases hds2 : ds = []
      · subst hds2
        rw [settleLoop_nil_right]
        simp [hlen]
      · have := settleLoop_length fuel
          ({ userId := c.userId, amount := c.amount - min c.amount d.amount } :: cs) ds s2
          (by simp) hds2
        simp at this ⊢
        omega

/-! ### The greedy loop: per-user conservation -/

/-- What the loop adds to each user's received-minus-sent total is exactly
the credit carried for them in the creditor list minus the debt carried in
the debtor list, provided all working amounts are positive whole cents and
the two lists carry equal totals. -/
theorem settleLoop_delta :
    ∀ (fuel : ℕ) (cs ds : List WorkingEntry) (acc : List Settlement),
      cs.length + ds.length ≤ fuel →
      (∀ c ∈ cs, isCent c.amount ∧ 1/100 ≤ c.amount) →
      (∀ d ∈ ds, isCent d.amount ∧ 1/100 ≤ d.amount) →
      entrySum cs = entrySum ds →
      ∀ u, receivedBy (settleLoop fuel cs ds acc) u - sentBy (settleLoop fuel cs ds acc) u
        = receivedBy acc u - sentBy acc u + creditOf cs u - creditOf ds u
  | fuel, [], ds, acc, _, _, hds, hsum, u => by
    have hds0 : ds = [] := entries_empty_of_sum_zero (fun d hd => (hds d hd).2)
      (by rw [← hsum]; rfl)
    subst hds0
    rw [settleLoop_nil_left]
    simp [creditOf_nil]
  | fuel, c :: cs, ds, acc, hfuel, hcs, hds, hsum, u => by
    cases ds with
    | nil =>
      exfalso
      have hcs0 : c :: cs = [] := entries_empty_of_sum_zero
        (fun e he => (hcs e he).2) (by rw [hsum]; rfl)
      exact List.noConfusion hcs0
    | cons d ds =>
      cases fuel with
      | zero => simp at hfuel
      | succ fuel =>
        have hc := hcs c (by simp)
        have hd := hds d (by simp)
        have hscent : isCent (min c.amount d.amount) := isCent_min hc.1 hd.1
        have hsge : 1/100 ≤ min c.amount d.amount := le_min hc.2 hd.2
        have hround : roundToTwo (min c.amount d.amount) = min c.amount d.amount :=
          roundTwo_eq_self hscent
        have hcann : 0 ≤ c.amount - min c.amount d.amount := by
          have := min_le_left c.amount d.amount
          linarith
        have hdann : 0 ≤ d.amount - min c.amount d.amount := by
          have := min_le_right c.amount d.amount
          linarith
        have hcd : c.amount + entrySum cs = d.amount + entrySum ds := by
          rw [entrySum_cons, entrySum_cons] at hsum
          linarith
        rw [settleLoop, hround]
        by_cases h1 : c.amount - min c.amount d.amount < 1/100
        · have hceq : min c.amount d.amount = c.amount := by
            have h0 : c.amount - min c.amount d.amount = 0 :=
              cent_eq_zero_of_abs_lt (isCent_sub hc.1 hscent) (by rwa [abs_of_nonneg hcann])
            linarith
          rw [if_pos h1]
          by_cases h2 : d.amount - min c.amount d.amount < 1/100
          · have hdeq : min c.amount d.amount = d.amount := by
              have h0 : d.amount - min c.amount d.amount = 0 :=
                cent_eq_zero_of_abs_lt (isCent_sub hd.1 hscent) (by rwa [abs_of_nonneg hdann])
              linarith
            rw [if_pos h2]
            have H := settleLoop_delta fuel cs ds
              (acc ++ [{ fromUser := d.userId, toUser := c.userId, amount := min c.amount d.amount }])
              (by simp at hfuel ⊢; omega)
              (fun e he => hcs e (List.mem_cons_of_mem _ he))
              (fun e he => hds e (List.mem_cons_of_mem _ he))
              (by linarith) u
            rw [H, receivedBy_append, sentBy_append, receivedBy_single, sentBy_single,
              creditOf_cons, creditOf_cons]
            by_cases hcu : c.userId = u <;> by_cases hdu : d.userId = u <;>
              simp [hcu, hdu] <;> linarith
          · rw [if_neg h2]
            have H := settleLoop_delta fuel cs
              ({ userId := d.userId, amount := d.amount - min c.amount d.amount } :: ds)
              (acc ++ [{ fromUser := d.userId, toUser := c.userId, amount := min c.amount d.amount }])
              (by simp at hfuel ⊢; omega)
              (fun e he => hcs e (List.mem_cons_of_mem _ he))
              (by
                intro e he
                rcases List.mem_cons.mp he with rfl | he2
                · exact ⟨isCent_sub hd.1 hscent, le_of_not_lt h2⟩
                · exact hds e (List.mem_cons_of_mem _ he2))
              (by rw [entrySum_cons]; simp <;> linarith) u
            rw [H, receivedBy_append, sentBy_append, receivedBy_single, sentBy_single,
              creditOf_cons, creditOf_cons, creditOf_cons]
            by_cases hcu : c.userId = u <;> by_cases hdu : d.userId = u <;>
              simp [hcu, hdu] <;> linarith
        · rw [if_neg h1]
          have hdeq : min c.amount d.amount = d.amount := by
            by_cases hmin : c.amount ≤ d.amount
            · exfalso
              rw [min_eq_left hmin] at h1
              simp at h1
            · exact min_eq_right (le_of_not_le hmin)
          have H := settleLoop_delta fuel
            ({ userId := c.userId, amount := c.amount - min c.amount d.amount } :: cs) ds
            (acc ++ [{ fromUser := d.userId, toUser := c.userId, amount := min c.amount d.amount }])
            (by simp at hfuel ⊢; omega)
            (by
              intro e he
              rcases List.mem_cons.mp he with rfl | he2
              · exact ⟨isCent_sub hc.1 hscent, le_of_not_lt h1⟩
              · exact hcs e (List.mem_cons_of_mem _ he2))
            (fun e he => hds e (List.mem_cons_of_mem _ he))
            (by rw [entrySum_cons]; simp <;> linarith) u
          rw [H, receivedBy_append, sentBy_append, receivedBy_single, sentBy_single,
            creditOf_cons, creditOf_cons, creditOf_cons]
          by_cases hcu : c.userId = u <;> by_cases hdu : d.userId = u <;>
            simp [hcu, hdu] <;> linarith

/-! ### The greedy loop: shape of emitted settlements -/

theorem settleLoop_mem :
    ∀ (fuel : ℕ) (cs ds : List WorkingEntry) (acc : List Settlement) (C D : List String),
      (∀ c ∈ cs, isCent c.amount ∧ 1/100 ≤ c.amount ∧ c.userId ∈ C) →
      (∀ d ∈ ds, isCent d.amount ∧ 1/100 ≤ d.amount ∧ d.userId ∈ D) →
      ∀ s ∈ settleLoop fuel cs ds acc,
        s ∈ acc ∨ (s.fromUser ∈ D ∧ s.toUser ∈ C ∧ isCent s.amount ∧ 1/100 ≤ s.amount)
  | 0, cs, ds, acc, C, D, _, _, s, hs => Or.inl (by rwa [settleLoop_zero] at hs)
  | fuel + 1, [], ds, acc, C, D, _, _, s, hs =>
    Or.inl (by rwa [settleLoop_nil_left] at hs)
  | fuel + 1, c :: cs, [], acc, C, D, _, _, s, hs =>
    Or.inl (by rwa [settleLoop_nil_right] at hs)
  | fuel + 1, c :: cs, d :: ds, acc, C, D, hcs, hds, s, hs => by
    have hc := hcs c (by simp)
    have hd := hds d (by simp)
    have hscent : isCent (min c.amount d.amount) := isCent_min hc.1 hd.1
    have hsge : 1/100 ≤ min c.amount d.amount := le_min hc.2.1 hd.2.1
    have hround : roundToTwo (min c.amount d.amount) = min c.amount d.amount :=
      roundTwo_eq_self hscent
    have hgood : ∀ t ∈ (acc ++
        [{ fromUser := d.userId, toUser := c.userId, amount := min c.amount d.amount }] :
          List Settlement),
        t ∈ acc ∨ (t.fromUser ∈ D ∧ t.toUser ∈ C ∧ isCent t.amount ∧ 1/100 ≤ t.amount) := by
      intro t ht
      rcases List.mem_append.mp ht with ht | ht
      · exact Or.inl ht
      · right
        have ht2 := List.mem_singleton.mp ht
        subst ht2
        exact ⟨hd.2.2, hc.2.2, hscent, hsge⟩
    rw [settleLoop, hround] at hs
    by_cases h1 : c.amount - min c.amount d.amount < 1/100
    · rw [if_pos h1] at hs
      by_cases h2 : d.amount - min c.amount d.amount < 1/100
      · rw [if_pos h2] at hs
        have H := settleLoop_mem fuel cs ds _ C D
          (fun e he => hcs e (List.mem_cons_of_mem _ he))
          (fun e he => hds e (List.mem_cons_of_mem _ he)) s hs
        rcases H with H | H
        · exact hgood s H
        · exact Or.inr H
      · rw [if_neg h2] at hs
        have H := settleLoop_mem fuel cs
          ({ userId := d.userId, amount := d.amount - min c.amount d.amount } :: ds) _ C D
          (fun e he => hcs e (List.mem_cons_of_mem _ he))
          (by
            intro e he
            rcases List.mem_cons.mp he with rfl | he2
            · exact ⟨isCent_sub hd.1 hscent, le_of_not_lt h2, hd.2.2⟩
            · exact hds e (List.mem_cons_of_mem _ he2)) s hs
        rcases H with H | H
        · exact hgood s H
        · exact Or.inr H
    · rw [if_neg h1] at hs
      have H := settleLoop_mem fuel
        ({ userId := c.userId, amount := c.amount - min c.amount d.amount } :: cs) ds _ C D
        (by
          intro e he
          rcases List.mem_cons.mp he with rfl | he2
          · exact ⟨isCent_sub hc.1 hscent, le_of_not_lt h1, hc.2.2⟩
          · exact hcs e (List.mem_cons_of_mem _ he2))
        (fun e he => hds e (List.mem_cons_of_mem _ he)) s hs
      rcases H with H | H
      · exact hgood s H
      · exact Or.inr H

/-! ### Per-user sums over a balance list -/

/-- Credit carried for `u` among the positive balances. -/
def posOf (bs : List UserBalance) (u : String) : ℚ :=
  (bs.map (fun b => if b.userId = u ∧ 0 < b.netAmount then b.netAmount else 0)).sum

/-- Debt carried for `u` among the negative balances. -/
def negOf (bs : List UserBalance) (u : String) : ℚ :=
  (bs.map (fun b => if b.userId = u ∧ b.netAmount < 0 then |b.netAmount| else 0)).sum

/-- Signed net total of user `u`'s entries. -/
def netOf (bs : List UserBalance) (u : String) : ℚ :=
  (bs.map (fun b => if b.userId = u then b.netAmount else 0)).sum

/-- Sum of the positive net amounts. -/
def posSum (bs : List UserBalance) : ℚ :=
  (bs.map (fun b => if 0 < b.netAmount then b.netAmount else 0)).sum

/-- Sum of the absolute values of the negative net amounts. -/
def negSum (bs : List UserBalance) : ℚ :=
  (bs.map (fun b => if b.netAmount < 0 then |b.netAmount| else 0)).sum

theorem posOf_sub_negOf (bs : List UserBalance) (u : String) :
    posOf bs u - negOf bs u = netOf bs u := by
  induction bs with
  | nil => simp [posOf, negOf, netOf]
  | cons b bs ih =>
    simp only [posOf, negOf, netOf, List.map_cons, List.sum_cons] at ih ⊢
    by_cases hu : b.userId = u
    · rcases lt_trichotomy b.netAmount 0 with hneg | hzero | hpos
      · rw [if_neg (by rintro ⟨_, h⟩; linarith), if_pos ⟨hu, hneg⟩, if_pos hu,
          abs_of_neg hneg]
        linarith
      · rw [if_neg (by rintro ⟨_, h⟩; linarith), if_neg (by rintro ⟨_, h⟩; linarith),
          if_pos hu, hzero]
        linarith
      · rw [if_pos ⟨hu, hpos⟩, if_neg (by rintro ⟨_, h⟩; linarith), if_pos hu]
        linarith
    · rw [if_neg (by rintro ⟨h, _⟩; exact hu h), if_neg (by rintro ⟨h, _⟩; exact hu h),
        if_neg hu]
      linarith

theorem posSum_sub_negSum (bs : List UserBalance) :
    posSum bs - negSum bs = (bs.map (fun b => b.netAmount)).sum := by
  induction bs with
  | nil => simp [posSum, negSum]
  | cons b bs ih =>
    simp only [posSum, negSum, List.map_cons, List.sum_cons] at ih ⊢
    rcases lt_trichotomy b.netAmount 0 with hneg | hzero | hpos
    · rw [if_neg (by linarith), if_pos hneg, abs_of_neg hneg]
      linarith
    · rw [if_neg (by linarith), if_neg (by linarith), hzero]
      linarith
    · rw [if_pos hpos, if_neg (by linarith)]
      linarith

theorem netOf_eq_zero_of_not_mem {bs : List UserBalance} {u : String}
    (h : u ∉ bs.map (fun b => b.userId)) : netOf bs u = 0 := by
  induction bs with
  | nil => rfl
  | cons b bs ih =>
    simp only [List.map_cons, List.mem_cons] at h
    push_neg at h
    simp only [netOf, List.map_cons, List.sum_cons]
    rw [if_neg (fun hh => h.1 hh.symm)]
    have := ih h.2
    simp only [netOf] at this
    rw [this]
    ring

theorem netOf_eq_of_mem {bs : List UserBalance} (hnd : (bs.map (fun b => b.userId)).Nodup)
    {b : UserBalance} (hb : b ∈ bs) : netOf bs b.userId = b.netAmount := by
  induction bs with
  | nil => simp at hb
  | cons b2 bs ih =>
    simp only [List.map_cons, List.nodup_cons] at hnd
    rcases List.mem_cons.mp hb with rfl | hb2
    · simp only [netOf, List.map_cons, List.sum_cons, if_true]
      have h0 := netOf_eq_zero_of_not_mem hnd.1
      simp only [netOf] at h0
      rw [h0]
      ring
    · have hne : ¬ b2.userId = b.userId := by
        intro hh
        exact hnd.1 (hh ▸ List.mem_map_of_mem (fun x => x.userId) hb2)
      simp only [netOf, List.map_cons, List.sum_cons]
      rw [if_neg hne]
      have := ih hnd.2 hb2
      simp only [netOf] at this
      rw [this]
      ring

/-! ### The creditor and debtor working lists -/

theorem creditOf_perm {l1 l2 : List WorkingEntry} (h : l1.Perm l2) (u : String) :
    creditOf l1 u = creditOf l2 u := (h.map _).sum_eq

theorem entrySum_perm {l1 l2 : List WorkingEntry} (h : l1.Perm l2) :
    entrySum l1 = entrySum l2 := (h.map _).sum_eq

theorem creditOf_creditors (bs : List UserBalance) (u : String) :
    creditOf ((bs.filter (fun b => decide (0 < b.netAmount))).map
      (fun b => ({ userId := b.userId, amount := b.netAmount } : WorkingEntry))) u
      = posOf bs u := by
  induction bs with
  | nil => rfl
  | cons b bs ih =>
    simp only [posOf, List.map_cons, List.sum_cons, List.filter_cons]
    by_cases hpos : 0 < b.netAmount
    · rw [if_pos (by simpa using hpos)]
      simp only [List.map_cons, creditOf_cons]
      by_cases hu : b.userId = u
      · rw [if_pos hu, if_pos ⟨hu, hpos⟩]
        simp only [posOf] at ih
        rw [ih]
      · rw [if_neg hu, if_neg (by rintro ⟨h, _⟩; exact hu h)]
        simp only [posOf] at ih
        rw [ih]
    · rw [if_neg (by simpa using hpos), if_neg (by rintro ⟨_, h⟩; exact hpos h)]
      simp only [posOf] at ih
      rw [ih]
      ring

theorem creditOf_debtors (bs : List UserBalance) (u : String) :
    creditOf ((bs.filter (fun b => decide (b.netAmount < 0))).map
      (fun b => ({ userId := b.userId, amount := |b.netAmount| } : WorkingEntry))) u
      = negOf bs u := by
  induction bs with
  | nil => rfl
  | cons b bs ih =>
    simp only [negOf, List.map_cons, List.sum_cons, List.filter_cons]
    by_cases hneg : b.netAmount < 0
    · rw [if_pos (by simpa using hneg)]
      simp only [List.map_cons, creditOf_cons]
      by_cases hu : b.userId = u
      · rw [if_pos hu, if_pos ⟨hu, hneg⟩]
        simp only [negOf] at ih
        rw [ih]
      · rw [if_neg hu, if_neg (by rintro ⟨h, _⟩; exact hu h)]
        simp only [negOf] at ih
        rw [ih]
    · rw [if_neg (by simpa using hneg), if_neg (by rintro ⟨_, h⟩; exact hneg h)]
      simp only [negOf] at ih
      rw [ih]
      ring

theorem entrySum_creditors (bs : List UserBalance) :
    entrySum ((bs.filter (fun b => decide (0 < b.netAmount))).map
      (fun b => ({ userId := b.userId, amount := b.netAmount } : WorkingEntry)))
      = posSum bs := by
  induction bs with
  | nil => rfl
  | cons b bs ih =>
    simp only [posSum, List.map_cons, List.sum_cons, List.filter_cons]
    by_cases hpos : 0 < b.netAmount
    · rw [if_pos (by simpa using hpos), if_pos hpos]
      simp only [List.map_cons, entrySum_cons]
      simp only [posSum] at ih
      rw [ih]
    · rw [if_neg (by simpa using hpos), if_neg hpos]
      simp only [posSum] at ih
      rw [ih]
      ring

theorem entrySum_debtors (bs : List UserBalance) :
    entrySum ((bs.filter (fun b => decide (b.netAmount < 0))).map
      (fun b => ({ userId := b.userId, amount := |b.netAmount| } : WorkingEntry)))
      = negSum bs := by
  induction bs with
  | nil => rfl
  | cons b bs ih =>
    simp only [negSum, List.map_cons, List.sum_cons, List.filter_cons]
    by_cases hneg : b.netAmount < 0
    · rw [if_pos (by simpa using hneg), if_pos hneg]
      simp only [List.map_cons, entrySum_cons]
      simp only [negSum] at ih
      rw [ih]
    · rw [if_neg (by simpa using hneg), if_neg hneg]
      simp only [negSum] at ih
      rw [ih]
      ring

/-! ### Replaying a plan (`validateSettlements` internals) -/

theorem exists_lookupA_of_mem_keysA {α : Type} {m : List (String × α)} {u : String}
    (h : u ∈ keysA m) : ∃ v, lookupA m u = some v := by
  induction m with
  | nil => simp at h
  | cons q rest ih =>
    obtain ⟨k, x⟩ := q
    by_cases hk : k = u
    · exact ⟨x, by simp [hk]⟩
    · have hr : u ∈ keysA rest := by
        simp at h
        rcases h with h1 | h1
        · exact absurd h1.symm hk
        · exact h1
      obtain ⟨v, hv⟩ := ih hr
      exact ⟨v, by simp [hk, hv]⟩

theorem sentBy_cons (s : Settlement) (S : List Settlement) (u : String) :
    sentBy (s :: S) u = (if s.fromUser = u then s.amount else 0) + sentBy S u := by
  simp [sentBy]

theorem receivedBy_cons (s : Settlement) (S : List Settlement) (u : String) :
    receivedBy (s :: S) u = (if s.toUser = u then s.amount else 0) + receivedBy S u := by
  simp [receivedBy]

theorem applySettlements_nil (m : List (String × ℚ)) : applySettlements m [] = m := rfl

theorem applySettlements_cons (m : List (String × ℚ)) (s : Settlement) (S : List Settlement) :
    applySettlements m (s :: S) =
      applySettlements
        (setA (setA m s.fromUser ((lookupA m s.fromUser).getD 0 + s.amount)) s.toUser
          ((lookupA m s.toUser).getD 0 - s.amount)) S := rfl

/-- Replaying a plan whose endpoints all live in the map adds each user's
sent total and removes their received total; the key set is unchanged. -/
theorem lookupA_applySettlements :
    ∀ (S : List Settlement) (m : List (String × ℚ)),
      (keysA m).Nodup →
      (∀ s ∈ S, s.fromUser ∈ keysA m ∧ s.toUser ∈ keysA m ∧ s.fromUser ≠ s.toUser) →
      keysA (applySettlements m S) = keysA m ∧
      ∀ u, lookupA (applySettlements m S) u =
        (lookupA m u).map (fun v => v + sentBy S u - receivedBy S u)
  | [], m, _, _ => by
    refine ⟨rfl, fun u => ?_⟩
    rw [applySettlements_nil]
    cases lookupA m u <;> simp [sentBy, receivedBy]
  | s :: S, m, hnd, hS => by
    obtain ⟨hfm, htm, hft⟩ := hS s (by simp)
    obtain ⟨fv, hfv⟩ := exists_lookupA_of_mem_keysA hfm
    obtain ⟨tv, htv⟩ := exists_lookupA_of_mem_keysA htm
    set m1 := setA m s.fromUser ((lookupA m s.fromUser).getD 0 + s.amount) with hm1
    set m2 := setA m1 s.toUser ((lookupA m s.toUser).getD 0 - s.amount) with hm2
    have hk1 : keysA m1 = keysA m := keysA_setA_of_mem hfm _
    have hk2 : keysA m2 = keysA m := by
      rw [hm2, keysA_setA_of_mem (by rwa [hk1]) _, hk1]
    have hnd2 : (keysA m2).Nodup := by rwa [hk2]
    have hS2 : ∀ t ∈ S, t.fromUser ∈ keysA m2 ∧ t.toUser ∈ keysA m2 ∧ t.fromUser ≠ t.toUser := by
      intro t ht
      obtain ⟨h1, h2, h3⟩ := hS t (List.mem_cons_of_mem _ ht)
      exact ⟨by rwa [hk2], by rwa [hk2], h3⟩
    obtain ⟨hkeys, hvals⟩ := lookupA_applySettlements S m2 hnd2 hS2
    have happ : applySettlements m (s :: S) = applySettlements m2 S := by
      rw [applySettlements_cons]
    refine ⟨by rw [happ, hkeys, hk2], fun u => ?_⟩
    rw [happ, hvals u]
    have hm2u : lookupA m2 u =
        if u = s.toUser then some (tv - s.amount)
        else if u = s.fromUser then some (fv + s.amount)
        else lookupA m u := by
      rw [hm2, lookupA_setA]
      by_cases hu : u = s.toUser
      · rw [if_pos hu, if_pos hu, htv]
        rfl
      · rw [if_neg hu, if_neg hu, hm1, lookupA_setA]
        by_cases hu2 : u = s.fromUser
        · rw [if_pos hu2, if_pos hu2, hfv]
          rfl
        · rw [if_neg hu2, if_neg hu2]
    rw [hm2u, sentBy_cons, receivedBy_cons]
    by_cases hu : u = s.toUser
    · subst hu
      rw [if_pos rfl, htv, if_neg hft, if_pos rfl]
      simp only [Option.map_some', Option.some.injEq]
      ring
    · by_cases hu2 : u = s.fromUser
      · subst hu2
        rw [if_neg hu, if_pos rfl, hfv, if_pos rfl,
          if_neg (show ¬ s.toUser = s.fromUser from fun hh => hft hh.symm)]
        simp only [Option.map_some', Option.some.injEq]
        ring
      · have h1 : ¬ s.fromUser = u := fun hh => hu2 hh.symm
        have h2 : ¬ s.toUser = u := fun hh => hu hh.symm
        rw [if_neg hu, if_neg hu2, if_neg h1, if_neg h2]
        cases lookupA m u <;> simp <;> ring

/-! ### Assembling the greedy planner's correctness -/

theorem sentBy_nil (u : String) : sentBy [] u = 0 := rfl

theorem receivedBy_nil (u : String) : receivedBy [] u = 0 := rfl

theorem initialBalances_eq_map (bs : List UserBalance)
    (hnd : (bs.map (fun b => b.userId)).Nodup) :
    initialBalances bs = bs.map (fun b => (b.userId, b.netAmount)) := by
  have h := foldl_setA_eq_map (fun b : UserBalance => b.userId)
    (fun b : UserBalance => b.netAmount) bs [] (by simp) hnd
  simpa [initialBalances] using h

theorem keysA_balance_pairs (bs : List UserBalance) :
    keysA (bs.map (fun b => (b.userId, b.netAmount))) = bs.map (fun b => b.userId) := by
  induction bs with
  | nil => rfl
  | cons b bs ih =>
    simp only [List.map_cons, keysA_cons]
    rw [ih]

theorem validate_nil_of_all_zero (bs : List UserBalance)
    (hnd : (bs.map (fun b => b.userId)).Nodup)
    (hzero : ∀ b ∈ bs, b.netAmount = 0) :
    validateSettlements bs [] = true := by
  rw [validateSettlements, applySettlements_nil, initialBalances_eq_map bs hnd,
    List.all_eq_true]
  intro p hp
  obtain ⟨b, hb, rfl⟩ := List.mem_map.mp hp
  simp [hzero b hb]

theorem mem_creditors_facts {bs : List UserBalance} (hcent : ∀ b ∈ bs, isCent b.netAmount) :
    ∀ c ∈ (bs.filter (fun b => decide (0 < b.netAmount))).map
        (fun b => ({ userId := b.userId, amount := b.netAmount } : WorkingEntry)),
      isCent c.amount ∧ 1/100 ≤ c.amount ∧
        c.userId ∈ (bs.filter (fun b => decide (0 < b.netAmount))).map (fun b => b.userId) := by
  intro c hc
  obtain ⟨b, hb, rfl⟩ := List.mem_map.mp hc
  have hbf := List.mem_filter.mp hb
  have hpos : 0 < b.netAmount := by simpa using hbf.2
  have hbc := hcent b hbf.1
  exact ⟨hbc, cent_le_of_pos hbc hpos, List.mem_map_of_mem _ hb⟩

theorem mem_debtors_facts {bs : List UserBalance} (hcent : ∀ b ∈ bs, isCent b.netAmount) :
    ∀ d ∈ (bs.filter (fun b => decide (b.netAmount < 0))).map
        (fun b => ({ userId := b.userId, amount := |b.netAmount| } : WorkingEntry)),
      isCent d.amount ∧ 1/100 ≤ d.amount ∧
        d.userId ∈ (bs.filter (fun b => decide (b.netAmount < 0))).map (fun b => b.userId) := by
  intro d hd
  obtain ⟨b, hb, rfl⟩ := List.mem_map.mp hd
  have hbf := List.mem_filter.mp hb
  have hneg : b.netAmount < 0 := by simpa using hbf.2
  have hbc := hcent b hbf.1
  refine ⟨isCent_abs hbc, ?_, List.mem_map_of_mem _ hb⟩
  exact cent_le_of_pos (isCent_abs hbc) (abs_pos.mpr (ne_of_lt hneg))

theorem pos_neg_userId_disjoint {bs : List UserBalance}
    (hnd : (bs.map (fun b => b.userId)).Nodup) {u : String}
    (hp : u ∈ (bs.filter (fun b => decide (0 < b.netAmount))).map (fun b => b.userId))
    (hn : u ∈ (bs.filter (fun b => decide (b.netAmount < 0))).map (fun b => b.userId)) :
    False := by
  obtain ⟨b1, hb1, hu1⟩ := List.mem_map.mp hp
  obtain ⟨b2, hb2, hu2⟩ := List.mem_map.mp hn
  have hf1 := List.mem_filter.mp hb1
  have hf2 := List.mem_filter.mp hb2
  have heq : b1 = b2 := List.inj_on_of_nodup_map hnd hf1.1 hf2.1 (by rw [hu1, hu2])
  have h1 : 0 < b1.netAmount := by simpa using hf1.2
  have h2 : b2.netAmount < 0 := by simpa using hf2.2
  rw [heq] at h1
  linarith

theorem filter_map_subset_ids (bs : List UserBalance) (p : UserBalance → Bool) {u : String}
    (h : u ∈ (bs.filter p).map (fun b => b.userId)) : u ∈ bs.map (fun b => b.userId) := by
  obtain ⟨b, hb, rfl⟩ := List.mem_map.mp h
  exact List.mem_map_of_mem _ ((List.mem_filter.mp hb).1)

/-- Greedy settlement correctness: on a duplicate-free, cent-aligned,
zero-sum balance list the produced plan drives every replayed balance to
exactly zero, so `validateSettlements` accepts it. -/
theorem greedy_validates (bs : List UserBalance)
    (hnd : (bs.map (fun b => b.userId)).Nodup)
    (hcent : ∀ b ∈ bs, isCent b.netAmount)
    (hsum : (bs.map (fun b => b.netAmount)).sum = 0) :
    validateSettlements bs (minimizeSettlements bs) = true := by
  by_cases h1 : bs.length ≤ 1
  · have hplan : minimizeSettlements bs = [] := by rw [minimizeSettlements, if_pos h1]
    rw [hplan]
    refine validate_nil_of_all_zero bs hnd ?_
    cases bs with
    | nil => simp
    | cons b bs2 =>
      cases bs2 with
      | nil =>
        intro b2 hb2
        simp at hb2 hsum
        rw [hb2]
        exact hsum
      | cons b3 bs3 => simp at h1
  · by_cases h2 : bs.all (fun b => decide (b.netAmount = 0))
    · have hplan : minimizeSettlements bs = [] := by
        rw [minimizeSettlements, if_neg h1, if_pos h2]
      rw [hplan]
      refine validate_nil_of_all_zero bs hnd ?_
      intro b hb
      simpa using List.all_eq_true.mp h2 b hb
    · rw [minimizeSettlements, if_neg h1, if_neg h2]
      set cpre := (bs.filter (fun b => decide (0 < b.netAmount))).map
        (fun b => ({ userId := b.userId, amount := b.netAmount } : WorkingEntry)) with hcpre
      set dpre := (bs.filter (fun b => decide (b.netAmount < 0))).map
        (fun b => ({ userId := b.userId, amount := |b.netAmount| } : WorkingEntry)) with hdpre
      set S := settleLoop (List.length (sortDesc cpre) + List.length (sortDesc dpre))
        (sortDesc cpre) (sortDesc dpre) [] with hS
      -- facts about the sorted working lists
      have hCfacts : ∀ c ∈ sortDesc cpre, isCent c.amount ∧ 1/100 ≤ c.amount :=
        fun c hc =>
          have h := mem_creditors_facts hcent c ((sortDesc_perm cpre).mem_iff.mp hc)
          ⟨h.1, h.2.1⟩
      have hDfacts : ∀ d ∈ sortDesc dpre, isCent d.amount ∧ 1/100 ≤ d.amount :=
        fun d hd =>
          have h := mem_debtors_facts hcent d ((sortDesc_perm dpre).mem_iff.mp hd)
          ⟨h.1, h.2.1⟩
      have hCmem : ∀ c ∈ sortDesc cpre, isCent c.amount ∧ 1/100 ≤ c.amount ∧
          c.userId ∈ (bs.filter (fun b => decide (0 < b.netAmount))).map (fun b => b.userId) :=
        fun c hc => mem_creditors_facts hcent c ((sortDesc_perm cpre).mem_iff.mp hc)
      have hDmem : ∀ d ∈ sortDesc dpre, isCent d.amount ∧ 1/100 ≤ d.amount ∧
          d.userId ∈ (bs.filter (fun b => decide (b.netAmount < 0))).map (fun b => b.userId) :=
        fun d hd => mem_debtors_facts hcent d ((sortDesc_perm dpre).mem_iff.mp hd)
      have hsums : entrySum (sortDesc cpre) = entrySum (sortDesc dpre) := by
        rw [entrySum_perm (sortDesc_perm cpre), entrySum_perm (sortDesc_perm dpre),
          hcpre, hdpre, entrySum_creditors, entrySum_debtors]
        have := posSum_sub_negSum bs
        rw [hsum] at this
        linarith
      -- what the plan transfers per user
      have hdelta : ∀ u, receivedBy S u - sentBy S u = netOf bs u := by
        intro u
        rw [hS, settleLoop_delta (List.length (sortDesc cpre) + List.length (sortDesc dpre))
          (sortDesc cpre) (sortDesc dpre) [] (le_refl _) hCfacts hDfacts hsums u]
        rw [sentBy_nil, receivedBy_nil,
          creditOf_perm (sortDesc_perm cpre), creditOf_perm (sortDesc_perm dpre),
          hcpre, hdpre, creditOf_creditors, creditOf_debtors]
        have := posOf_sub_negOf bs u
        linarith
      -- plan endpoints and well-formedness
      have hmem : ∀ s ∈ S, s.fromUser ∈ bs.map (fun b => b.userId) ∧
          s.toUser ∈ bs.map (fun b => b.userId) ∧ s.fromUser ≠ s.toUser := by
        intro s hs
        have H := settleLoop_mem _ (sortDesc cpre) (sortDesc dpre) [] _ _ hCmem hDmem s
          (by rw [← hS]; exact hs)
        rcases H with H | H
        · simp at H
        · refine ⟨filter_map_subset_ids bs _ H.1, filter_map_subset_ids bs _ H.2.1, ?_⟩
          intro heq
          exact pos_neg_userId_disjoint hnd H.2.1 (heq ▸ H.1)
      -- replay the plan against the initial balances
      have hinit := initialBalances_eq_map bs hnd
      have hkeysinit : keysA (initialBalances bs) = bs.map (fun b => b.userId) := by
        rw [hinit, keysA_balance_pairs]
      have hndkeys : (keysA (initialBalances bs)).Nodup := by rwa [hkeysinit]
      have hgoodS : ∀ s ∈ S, s.fromUser ∈ keysA (initialBalances bs) ∧
          s.toUser ∈ keysA (initialBalances bs) ∧ s.fromUser ≠ s.toUser := by
        intro s hs
        obtain ⟨hf, ht, hne⟩ := hmem s hs
        exact ⟨by rwa [hkeysinit], by rwa [hkeysinit], hne⟩
      obtain ⟨hkeysfin, hvals⟩ := lookupA_applySettlements S (initialBalances bs) hndkeys hgoodS
      rw [validateSettlements, List.all_eq_true]
      intro p hp
      obtain ⟨u, v⟩ := p
      have hndfin : (keysA (applySettlements (initialBalances bs) S)).Nodup := by
        rw [hkeysfin]
        exact hndkeys
      have hlkfin : lookupA (applySettlements (initialBalances bs) S) u = some v :=
        lookupA_eq_some_of_mem hndfin hp
      rw [hvals u] at hlkfin
      cases hlk0 : lookupA (initialBalances bs) u with
      | none =>
        rw [hlk0] at hlkfin
        exact absurd hlkfin (by simp)
      | some v0 =>
        rw [hlk0] at hlkfin
        simp only [Option.map_some', Option.some.injEq] at hlkfin
        have hmem0 := mem_of_lookupA_eq_some hlk0
        rw [hinit] at hmem0
        obtain ⟨b, hb, hbe⟩ := List.mem_map.mp hmem0
        injection hbe with hbu hbv
        have hnetu : netOf bs u = v0 := by
          rw [← hbu, netOf_eq_of_mem hnd hb]
          exact hbv
        have hv : v = 0 := by
          have hd := hdelta u
          rw [hnetu] at hd
          linarith
        simp [hv]

/-! ### Counting settlements -/

theorem filter_pos_add_neg (bs : List UserBalance) :
    (bs.filter (fun b => decide (0 < b.netAmount))).length +
      (bs.filter (fun b => decide (b.netAmount < 0))).length =
      (bs.filter (fun b => decide (¬ b.netAmount = 0))).length := by
  induction bs with
  | nil => rfl
  | cons b bs ih =>
    rcases lt_trichotomy b.netAmount 0 with hneg | hzero | hpos
    · rw [List.filter_cons_of_neg (by simp <;> linarith),
        List.filter_cons_of_pos (by simpa using hneg),
        List.filter_cons_of_pos (by simpa using ne_of_lt hneg)]
      simp only [List.length_cons]
      omega
    · rw [List.filter_cons_of_neg (by simp [hzero]),
        List.filter_cons_of_neg (by simp [hzero]),
        List.filter_cons_of_neg (by simp [hzero])]
      exact ih
    · rw [List.filter_cons_of_pos (by simpa using hpos),
        List.filter_cons_of_neg (by simp <;> linarith),
        List.filter_cons_of_pos (by simpa using ne_of_gt hpos)]
      simp only [List.length_cons]
      omega

/-- Either the planner bails out with the empty plan, or it emits strictly
fewer settlements than there are users with a non-zero balance. -/
theorem minimize_length_bound (bs : List UserBalance) :
    minimizeSettlements bs = [] ∨
      (minimizeSettlements bs).length + 1 ≤
        (bs.filter (fun b => decide (¬ b.netAmount = 0))).length := by
  by_cases h1 : bs.length ≤ 1
  · exact Or.inl (by rw [minimizeSettlements, if_pos h1])
  · by_cases h2 : bs.all (fun b => decide (b.netAmount = 0))
    · exact Or.inl (by rw [minimizeSettlements, if_neg h1, if_pos h2])
    · rw [minimizeSettlements, if_neg h1, if_neg h2]
      set cs := sortDesc ((bs.filter (fun b => decide (0 < b.netAmount))).map
        (fun b => ({ userId := b.userId, amount := b.netAmount } : WorkingEntry))) with hcs
      set ds := sortDesc ((bs.filter (fun b => decide (b.netAmount < 0))).map
        (fun b => ({ userId := b.userId, amount := |b.netAmount| } : WorkingEntry))) with hds
      by_cases hc0 : cs = []
      · exact Or.inl (by rw [hc0, settleLoop_nil_left])
      · by_cases hd0 : ds = []
        · exact Or.inl (by rw [hd0, settleLoop_nil_right])
        · right
          show (settleLoop (cs.length + ds.length) cs ds []).length + 1 ≤
            (bs.filter (fun b => decide (¬ b.netAmount = 0))).length
          have H := settleLoop_length (cs.length + ds.length) cs ds [] hc0 hd0
          have hlc : cs.length = (bs.filter (fun b => decide (0 < b.netAmount))).length := by
            rw [hcs, (sortDesc_perm _).length_eq, List.length_map]
          have hld : ds.length = (bs.filter (fun b => decide (b.netAmount < 0))).length := by
            rw [hds, (sortDesc_perm _).length_eq, List.length_map]
          rw [← filter_pos_add_neg]
          simp only [List.length_nil, zero_add] at H
          omega

/-- Every settlement the greedy planner emits on a cent-aligned balance list
goes from the id of a negative entry to the id of a positive entry and
carries a positive whole number of cents. -/
theorem minimize_mem (bs : List UserBalance)
    (hcent : ∀ b ∈ bs, isCent b.netAmount) :
    ∀ s ∈ minimizeSettlements bs,
      s.fromUser ∈ (bs.filter (fun b => decide (b.netAmount < 0))).map (fun b => b.userId) ∧
      s.toUser ∈ (bs.filter (fun b => decide (0 < b.netAmount))).map (fun b => b.userId) ∧
      isCent s.amount ∧ 1/100 ≤ s.amount := by
  intro s hs
  by_cases h1 : bs.length ≤ 1
  · rw [minimizeSettlements, if_pos h1] at hs
    simp at hs
  · by_cases h2 : bs.all (fun b => decide (b.netAmount = 0))
    · rw [minimizeSettlements, if_neg h1, if_pos h2] at hs
      simp at hs
    · rw [minimizeSettlements, if_neg h1, if_neg h2] at hs
      set cpre := (bs.filter (fun b => decide (0 < b.netAmount))).map
        (fun b => ({ userId := b.userId, amount := b.netAmount } : WorkingEntry)) with hcpre
      set dpre := (bs.filter (fun b => decide (b.netAmount < 0))).map
        (fun b => ({ userId := b.userId, amount := |b.netAmount| } : WorkingEntry)) with hdpre
      have H := settleLoop_mem ((sortDesc cpre).length + (sortDesc dpre).length)
        (sortDesc cpre) (sortDesc dpre) []
        ((bs.filter (fun b => decide (0 < b.netAmount))).map (fun b => b.userId))
        ((bs.filter (fun b => decide (b.netAmount < 0))).map (fun b => b.userId))
        (fun c hc => mem_creditors_facts hcent c ((sortDesc_perm cpre).mem_iff.mp hc))
        (fun d hd => mem_debtors_facts hcent d ((sortDesc_perm dpre).mem_iff.mp hd))
        s hs
      rcases H with H | H
      · simp at H
      · exact ⟨H.1, H.2.1, H.2.2⟩

/-! ### The alternative vertex-merging planner -/

/-- Sum of the values of an amounts map. -/
def valuesSum (m : List (String × ℚ)) : ℚ := (m.map (·.2)).sum

theorem valuesSum_nil : valuesSum [] = 0 := rfl

theorem valuesSum_cons (p : String × ℚ) (m : List (String × ℚ)) :
    valuesSum (p :: m) = p.2 + valuesSum m := by simp [valuesSum]

theorem valuesSum_setA :
    ∀ {m : List (String × ℚ)} {u : String} {a : ℚ}, lookupA m u = some a →
      ∀ v, valuesSum (setA m u v) = valuesSum m - a + v := by
  intro m
  induction m with
  | nil => intro u a h v; simp at h
  | cons p rest ih =>
    intro u a h v
    obtain ⟨k, w⟩ := p
    by_cases hk : k = u
    · subst hk
      have h2 : w = a := by
        have h3 := h
        rw [lookupA_cons, if_pos rfl] at h3
        injection h3
      subst h2
      have h3 : setA ((k, w) :: rest) k v = (k, v) :: rest := by simp [setA]
      rw [h3, valuesSum_cons, valuesSum_cons]
      ring
    · rw [lookupA_cons, if_neg hk] at h
      have h3 : setA ((k, w) :: rest) u v = (k, w) :: setA rest u v := by simp [setA, hk]
      rw [h3, valuesSum_cons, valuesSum_cons, ih h v]
      ring

theorem valuesSum_deleteA :
    ∀ {m : List (String × ℚ)} {u : String} {a : ℚ}, lookupA m u = some a →
      valuesSum (deleteA m u) = valuesSum m - a := by
  intro m
  induction m with
  | nil => intro u a h; simp at h
  | cons p rest ih =>
    intro u a h
    obtain ⟨k, w⟩ := p
    by_cases hk : k = u
    · subst hk
      have h2 : w = a := by
        have h3 := h
        rw [lookupA_cons, if_pos rfl] at h3
        injection h3
      subst h2
      have h3 : deleteA ((k, w) :: rest) k = rest := by simp [deleteA]
      rw [h3, valuesSum_cons]
      ring
    · rw [lookupA_cons, if_neg hk] at h
      have h3 : deleteA ((k, w) :: rest) u = (k, w) :: deleteA rest u := by simp [deleteA, hk]
      rw [h3, valuesSum_cons, valuesSum_cons, ih h]
      ring

/-- Scan invariant for the max-creditor fold. -/
theorem maxCreditorStep_ne_none (acc : Option (String × ℚ)) (p : String × ℚ) :
    maxCreditorStep acc p ≠ none := by
  rcases acc with _ | ⟨u, a⟩
  · simp [maxCreditorStep]
  · rw [maxCreditorStep]
    by_cases ha : a < p.2 <;> simp [ha]

theorem findMaxCreditor_aux :
    ∀ (l : List (String × ℚ)) (acc : Option (String × ℚ)),
      (∀ rv, l.foldl maxCreditorStep acc = some rv →
        (∀ q ∈ l, q.2 ≤ rv.2) ∧ (∀ a, acc = some a → a.2 ≤ rv.2) ∧
        (rv ∈ l ∨ acc = some rv)) ∧
      (l.foldl maxCreditorStep acc = none → acc = none ∧ l = [])
  | [], acc => by
    constructor
    · intro rv h
      simp only [List.foldl_nil] at h
      refine ⟨by simp, fun a ha => ?_, Or.inr h⟩
      rw [h] at ha
      injection ha with ha2
      rw [ha2]
    · intro h
      simp only [List.foldl_nil] at h
      exact ⟨h, rfl⟩
  | p :: l, acc => by
    have hfold : (p :: l).foldl maxCreditorStep acc = l.foldl maxCreditorStep
        (maxCreditorStep acc p) := by simp
    constructor
    · intro rv h
      rw [hfold] at h
      obtain ⟨H1, H2, H3⟩ := (findMaxCreditor_aux l (maxCreditorStep acc p)).1 rv h
      rcases acc with _ | ⟨u, a⟩
      · have hstep : maxCreditorStep none p = some p := rfl
        rw [hstep] at H2 H3
        have hglue : p.2 ≤ rv.2 := H2 p rfl
        refine ⟨?_, by simp, ?_⟩
        · intro q hq
          rcases List.mem_cons.mp hq with rfl | hq2
          · exact hglue
          · exact H1 q hq2
        · rcases H3 with H3 | H3
          · exact Or.inl (List.mem_cons_of_mem _ H3)
          · injection H3 with H4
            exact Or.inl (H4 ▸ List.mem_cons_self p l)
      · by_cases ha : a < p.2
        · have hstep : maxCreditorStep (some (u, a)) p = some p := by
            rw [maxCreditorStep]
            exact if_pos ha
          rw [hstep] at H2 H3
          have hglue : p.2 ≤ rv.2 := H2 p rfl
          refine ⟨?_, ?_, ?_⟩
          · intro q hq
            rcases List.mem_cons.mp hq with rfl | hq2
            · exact hglue
            · exact H1 q hq2
          · intro a0 ha0
            injection ha0 with ha1
            subst ha1
            linarith
          · rcases H3 with H3 | H3
            · exact Or.inl (List.mem_cons_of_mem _ H3)
            · injection H3 with H4
              exact Or.inl (H4 ▸ List.mem_cons_self p l)
        · have hstep : maxCreditorStep (some (u, a)) p = some (u, a) := by
            rw [maxCreditorStep]
            exact if_neg ha
          rw [hstep] at H2 H3
          have hglue : a ≤ rv.2 := H2 (u, a) rfl
          refine ⟨?_, ?_, ?_⟩
          · intro q hq
            rcases List.mem_cons.mp hq with rfl | hq2
            · push_neg at ha
              linarith
            · exact H1 q hq2
          · intro a0 ha0
            injection ha0 with ha1
            subst ha1
            exact hglue
          · rcases H3 with H3 | H3
            · exact Or.inl (List.mem_cons_of_mem _ H3)
            · exact Or.inr H3
    · intro h
      rw [hfold] at h
      obtain ⟨h1, _⟩ := (findMaxCreditor_aux l (maxCreditorStep acc p)).2 h
      exact absurd h1 (maxCreditorStep_ne_none acc p)

/-- Scan invariant for the max-debtor fold. -/
theorem findMaxDebtor_aux :
    ∀ (l : List (String × ℚ)) (acc : Option (String × ℚ)),
      (∀ rv, l.foldl maxDebtorStep acc = some rv →
        (∀ q ∈ l, q.2 < 0 → |q.2| ≤ rv.2) ∧ (∀ a, acc = some a → a.2 ≤ rv.2) ∧
        ((∃ q ∈ l, q.2 < 0 ∧ rv = (q.1, |q.2|)) ∨ acc = some rv)) ∧
      (l.foldl maxDebtorStep acc = none → acc = none ∧ ∀ q ∈ l, ¬ q.2 < 0)
  | [], acc => by
    constructor
    · intro rv h
      simp only [List.foldl_nil] at h
      refine ⟨by simp, fun a ha => ?_, Or.inr h⟩
      rw [h] at ha
      injection ha with ha2
      rw [ha2]
    · intro h
      simp only [List.foldl_nil] at h
      exact ⟨h, by simp⟩
  | p :: l, acc => by
    have hfold : (p :: l).foldl maxDebtorStep acc = l.foldl maxDebtorStep
        (maxDebtorStep acc p) := by simp
    constructor
    · intro rv h
      rw [hfold] at h
      obtain ⟨H1, H2, H3⟩ := (findMaxDebtor_aux l (maxDebtorStep acc p)).1 rv h
      by_cases hp : p.2 < 0
      · rcases acc with _ | ⟨u, a⟩
        · have hstep : maxDebtorStep none p = some (p.1, |p.2|) := by
            unfold maxDebtorStep
            exact if_pos hp
          rw [hstep] at H2 H3
          have hglue : |p.2| ≤ rv.2 := H2 (p.1, |p.2|) rfl
          refine ⟨?_, by simp, ?_⟩
          · intro q hq hqn
            rcases List.mem_cons.mp hq with rfl | hq2
            · exact hglue
            · exact H1 q hq2 hqn
          · rcases H3 with ⟨q, hq, hqn, hrv⟩ | H3
            · exact Or.inl ⟨q, List.mem_cons_of_mem _ hq, hqn, hrv⟩
            · injection H3 with H4
              exact Or.inl ⟨p, List.mem_cons_self p l, hp, H4.symm⟩
        · by_cases ha : a < |p.2|
          · have hstep : maxDebtorStep (some (u, a)) p = some (p.1, |p.2|) := by
              unfold maxDebtorStep
              rw [if_pos hp]
              exact if_pos ha
            rw [hstep] at H2 H3
            have hglue : |p.2| ≤ rv.2 := H2 (p.1, |p.2|) rfl
            refine ⟨?_, ?_, ?_⟩
            · intro q hq hqn
              rcases List.mem_cons.mp hq with rfl | hq2
              · exact hglue
              · exact H1 q hq2 hqn
            · intro a0 ha0
              injection ha0 with ha1
              subst ha1
              linarith
            · rcases H3 with ⟨q, hq, hqn, hrv⟩ | H3
              · exact Or.inl ⟨q, List.mem_cons_of_mem _ hq, hqn, hrv⟩
              · injection H3 with H4
                exact Or.inl ⟨p, List.mem_cons_self p l, hp, H4.symm⟩
          · have hstep : maxDebtorStep (some (u, a)) p = some (u, a) := by
              unfold maxDebtorStep
              rw [if_pos hp]
              exact if_neg ha
            rw [hstep] at H2 H3
            have hglue : a ≤ rv.2 := H2 (u, a) rfl
            refine ⟨?_, ?_, ?_⟩
            · intro q hq hqn
              rcases List.mem_cons.mp hq with rfl | hq2
              · push_neg at ha
                linarith
              · exact H1 q hq2 hqn
            · intro a0 ha0
              injection ha0 with ha1
              subst ha1
              exact hglue
            · rcases H3 with ⟨q, hq, hqn, hrv⟩ | H3
              · exact Or.inl ⟨q, List.mem_cons_of_mem _ hq, hqn, hrv⟩
              · exact Or.inr H3
      · have hstep : maxDebtorStep acc p = acc := by
          unfold maxDebtorStep
          exact if_neg hp
        rw [hstep] at H2 H3
        refine ⟨?_, H2, ?_⟩
        · intro q hq hqn
          rcases List.mem_cons.mp hq with rfl | hq2
          · exact absurd hqn hp
          · exact H1 q hq2 hqn
        · rcases H3 with ⟨q, hq, hqn, hrv⟩ | H3
          · exact Or.inl ⟨q, List.mem_cons_of_mem _ hq, hqn, hrv⟩
          · exact Or.inr H3
    · intro h
      rw [hfold] at h
      obtain ⟨h1, h2⟩ := (findMaxDebtor_aux l (maxDebtorStep acc p)).2 h
      by_cases hp : p.2 < 0
      · exfalso
        rcases acc with _ | ⟨u, a⟩
        · have hstep : maxDebtorStep none p = some (p.1, |p.2|) := by
            unfold maxDebtorStep
            exact if_pos hp
          rw [hstep] at h1
          exact Option.noConfusion h1
        · by_cases ha : a < |p.2|
          · have hstep : maxDebtorStep (some (u, a)) p = some (p.1, |p.2|) := by
              unfold maxDebtorStep
              rw [if_pos hp]
              exact if_pos ha
            rw [hstep] at h1
            exact Option.noConfusion h1
          · have hstep : maxDebtorStep (some (u, a)) p = some (u, a) := by
              unfold maxDebtorStep
              rw [if_pos hp]
              exact if_neg ha
            rw [hstep] at h1
            exact Option.noConfusion h1
      · have hstep : maxDebtorStep acc p = acc := by
          unfold maxDebtorStep
          exact if_neg hp
        rw [hstep] at h1
        refine ⟨h1, ?_⟩
        intro q hq
        rcases List.mem_cons.mp hq with rfl | hq2
        · exact hp
        · exact h2 q hq2

/-! ### Correctness of the alternative planner's loop -/

theorem valuesSum_nonneg {m : List (String × ℚ)} :
    (∀ p ∈ m, 0 ≤ p.2) → 0 ≤ valuesSum m := by
  induction m with
  | nil => intro _; exact le_refl 0
  | cons p rest ih =>
    intro h
    rw [valuesSum_cons]
    have h1 := h p (by simp)
    have h2 := ih (fun r hr => h r (List.mem_cons_of_mem _ hr))
    linarith

theorem valuesSum_nonpos {m : List (String × ℚ)} :
    (∀ p ∈ m, p.2 ≤ 0) → valuesSum m ≤ 0 := by
  induction m with
  | nil => intro _; exact le_refl 0
  | cons p rest ih =>
    intro h
    rw [valuesSum_cons]
    have h1 := h p (by simp)
    have h2 := ih (fun r hr => h r (List.mem_cons_of_mem _ hr))
    linarith

theorem valuesSum_neg_of_mem {q : String × ℚ} {m : List (String × ℚ)} :
    (∀ p ∈ m, p.2 ≤ 0) → q ∈ m → q.2 < 0 → valuesSum m < 0 := by
  induction m with
  | nil => intro _ hq _; simp at hq
  | cons p rest ih =>
    intro hall hq hqneg
    rw [valuesSum_cons]
    have hrest : valuesSum rest ≤ 0 :=
      valuesSum_nonpos (fun r hr => hall r (List.mem_cons_of_mem _ hr))
    rcases List.mem_cons.mp hq with rfl | hq2
    · linarith
    · have hp := hall p (by simp)
      have := ih (fun r hr => hall r (List.mem_cons_of_mem _ hr)) hq2 hqneg
      linarith

/-- One delete-or-store map update of the vertex-merging loop.  A
cent-aligned new value below one cent is exactly zero, so the deleted entry
carries no amount and the update conserves the total up to the recorded
value change. -/
theorem updateEntry_facts {m : List (String × ℚ)} {u : String} {a : ℚ}
    (hnd : (keysA m).Nodup) (hlk : lookupA m u = some a) (v : ℚ) (hvc : isCent v) :
    (keysA (if |v| < 1/100 then deleteA m u else setA m u v)).Nodup ∧
    (∀ x ∈ keysA (if |v| < 1/100 then deleteA m u else setA m u v), x ∈ keysA m) ∧
    (v = 0 → (if |v| < 1/100 then deleteA m u else setA m u v).length + 1 = m.length) ∧
    (v ≠ 0 → (if |v| < 1/100 then deleteA m u else setA m u v).length = m.length) ∧
    valuesSum (if |v| < 1/100 then deleteA m u else setA m u v) = valuesSum m - a + v ∧
    (lookupA (if |v| < 1/100 then deleteA m u else setA m u v) u).getD 0 = v ∧
    (∀ w, w ≠ u → lookupA (if |v| < 1/100 then deleteA m u else setA m u v) w = lookupA m w) ∧
    (∀ p ∈ (if |v| < 1/100 then deleteA m u else setA m u v),
      p ∈ m ∨ (p = (u, v) ∧ 1/100 ≤ |v|)) := by
  have hu_keys : u ∈ keysA m := mem_keysA_of_lookupA hlk
  by_cases hv : v = 0
  · have hif : (if |v| < 1/100 then deleteA m u else setA m u v) = deleteA m u := by
      rw [if_pos (by rw [hv]; norm_num)]
    rw [hif]
    refine ⟨List.Nodup.sublist (keysA_deleteA_sublist m u) hnd,
      fun x hx => (keysA_deleteA_sublist m u).subset hx,
      fun _ => length_deleteA_of_mem hu_keys,
      fun hv2 => absurd hv hv2,
      by rw [valuesSum_deleteA hlk, hv]; ring,
      by rw [lookupA_deleteA_self hnd, hv]; rfl,
      fun w hw => lookupA_deleteA_ne m hw,
      fun p hp => Or.inl ((deleteA_sublist m u).subset hp)⟩
  · have habs : 1/100 ≤ |v| := cent_le_of_pos (isCent_abs hvc) (abs_pos.mpr hv)
    have hif : (if |v| < 1/100 then deleteA m u else setA m u v) = setA m u v :=
      if_neg (not_lt.mpr habs)
    rw [hif]
    refine ⟨nodup_keysA_setA v hnd,
      fun x hx => by rwa [keysA_setA_of_mem hu_keys v] at hx,
      fun hv2 => absurd hv2 hv,
      fun _ => length_setA_of_mem hu_keys v,
      valuesSum_setA hlk v,
      by rw [lookupA_setA, if_pos rfl]; rfl,
      fun w hw => by rw [lookupA_setA, if_neg hw],
      fun p hp => ?_⟩
    rcases mem_setA hp with h | h
    · exact Or.inl h
    · exact Or.inr ⟨h, habs⟩

/-- What one full iteration of the vertex-merging loop does to the amounts
map: keys only shrink and by at least one (the settled minimum zeroes the
creditor side or the debtor side), the total is conserved, and the creditor
and debtor values move by the settled amount. -/
theorem altNext_facts {m : List (String × ℚ)} {cu du : String} {ca da q2 : ℚ}
    (hnd : (keysA m).Nodup) (hlkc : lookupA m cu = some ca) (hlkd : lookupA m du = some q2)
    (hne : cu ≠ du) (hq2 : q2 = -da) (hcac : isCent ca) (hdac : isCent da)
    (hcag : 1/100 ≤ ca) (hdag : 1/100 ≤ da) :
    (keysA (altNext m cu ca du da)).Nodup ∧
    (∀ x ∈ keysA (altNext m cu ca du da), x ∈ keysA m) ∧
    (altNext m cu ca du da).length + 1 ≤ m.length ∧
    valuesSum (altNext m cu ca du da) = valuesSum m ∧
    (lookupA (altNext m cu ca du da) cu).getD 0 = ca - min ca da ∧
    (lookupA (altNext m cu ca du da) du).getD 0 = -da + min ca da ∧
    (∀ w, w ≠ cu → w ≠ du → lookupA (altNext m cu ca du da) w = lookupA m w) ∧
    (∀ p ∈ altNext m cu ca du da, p ∈ m ∨ (isCent p.2 ∧ 1/100 ≤ |p.2|)) := by
  have hs0c : isCent (min ca da) := isCent_min hcac hdac
  have hnewCc : isCent (ca - min ca da) := isCent_sub hcac hs0c
  have hnewDc : isCent (-da + min ca da) := isCent_add (isCent_neg hdac) hs0c
  obtain ⟨h1nd, h1sub, h1len0, h1len1, h1sum, h1cu, h1oth, h1mem⟩ :=
    updateEntry_facts hnd hlkc (ca - min ca da) hnewCc
  have h1du : lookupA (if |ca - min ca da| < 1/100 then deleteA m cu
      else setA m cu (ca - min ca da)) du = some q2 := by
    rw [h1oth du (Ne.symm hne)]
    exact hlkd
  obtain ⟨h2nd, h2sub, h2len0, h2len1, h2sum, h2du, h2oth, h2mem⟩ :=
    updateEntry_facts h1nd h1du (-da + min ca da) hnewDc
  have haltnext : altNext m cu ca du da =
      (if |(-da + min ca da)| < 1/100
        then deleteA (if |ca - min ca da| < 1/100 then deleteA m cu
          else setA m cu (ca - min ca da)) du
        else setA (if |ca - min ca da| < 1/100 then deleteA m cu
          else setA m cu (ca - min ca da)) du (-da + min ca da)) := rfl
  rw [haltnext]
  have hor : ca - min ca da = 0 ∨ -da + min ca da = 0 := by
    rcases min_choice ca da with h | h
    · left; rw [h]; ring
    · right; rw [h]; ring
  refine ⟨h2nd, fun x hx => h1sub x (h2sub x hx), ?_, ?_, ?_, h2du, ?_, ?_⟩
  · rcases hor with h | h
    · have e1 := h1len0 h
      by_cases h2 : -da + min ca da = 0
      · have e2 := h2len0 h2
        omega
      · have e2 := h2len1 h2
        omega
    · have e2 := h2len0 h
      by_cases h1 : ca - min ca da = 0
      · have e1 := h1len0 h1
        omega
      · have e1 := h1len1 h1
        omega
  · rw [h2sum, h1sum, hq2]
    ring
  · rw [h2oth cu hne]
    exact h1cu
  · intro w h1w h2w
    rw [h2oth w h2w, h1oth w h1w]
  · intro p hp
    rcases h2mem p hp with h | ⟨hpe, hpge⟩
    · rcases h1mem p h with h3 | ⟨hpe, hpge⟩
      · exact Or.inl h3
      · subst hpe
        exact Or.inr ⟨hnewCc, hpge⟩
    · subst hpe
      exact Or.inr ⟨hnewDc, hpge⟩

theorem altLoop_zero (m : List (String × ℚ)) (acc : List Settlement) :
    altLoop 0 m acc = acc := rfl

theorem altLoop_small (fuel : ℕ) (m : List (String × ℚ)) (acc : List Settlement)
    (hlen : m.length ≤ 1) : altLoop (fuel + 1) m acc = acc := by
  rw [altLoop, if_pos hlen]

theorem altLoop_step (fuel : ℕ) (m : List (String × ℚ)) (acc : List Settlement)
    (hlen : ¬ m.length ≤ 1) {cu du : String} {ca da : ℚ}
    (hc : findMaxCreditor m = some (cu, ca)) (hd : findMaxDebtor m = some (du, da))
    (hcu : cu ≠ "") (hdu : du ≠ "") :
    altLoop (fuel + 1) m acc =
      altLoop fuel (altNext m cu ca du da)
        (acc ++ [{ fromUser := du, toUser := cu, amount := roundToTwo (min ca da) }]) := by
  have h1 : altLoop (fuel + 1) m acc =
      (if cu = "" ∨ du = "" then acc
       else altLoop fuel (altNext m cu ca du da)
         (acc ++ [{ fromUser := du, toUser := cu, amount := roundToTwo (min ca da) }])) := by
    rw [altLoop, if_neg hlen, hc, hd]
  rw [h1, if_neg (fun h => h.elim hcu hdu)]

/-- Full correctness invariant of the vertex-merging loop: on a
duplicate-free amounts map with no empty-string key (so the source's
truthiness break never fires) whose entries are cent-aligned, at least one
cent in absolute value and sum to zero, the emitted settlements transfer to
every user exactly their map amount, and every emitted settlement runs
between two distinct keys of the map. -/
theorem altLoop_spec :
    ∀ (fuel : ℕ) (m : List (String × ℚ)) (acc : List Settlement),
      m.length ≤ fuel →
      (keysA m).Nodup →
      (∀ x ∈ keysA m, x ≠ "") →
      (∀ p ∈ m, isCent p.2 ∧ 1/100 ≤ |p.2|) →
      valuesSum m = 0 →
      (∀ u, receivedBy (altLoop fuel m acc) u - sentBy (altLoop fuel m acc) u =
        receivedBy acc u - sentBy acc u + (lookupA m u).getD 0) ∧
      (∀ s ∈ altLoop fuel m acc, s ∈ acc ∨
        (s.fromUser ∈ keysA m ∧ s.toUser ∈ keysA m ∧ s.fromUser ≠ s.toUser))
  | 0, m, acc, hfuel, _, _, _, _ => by
    have hm : m = [] := List.length_eq_zero.mp (Nat.le_zero.mp hfuel)
    subst hm
    rw [altLoop_zero]
    exact ⟨fun u => by simp, fun s hs => Or.inl hs⟩
  | fuel + 1, m, acc, hfuel, hnd, hks, hent, hsum => by
    by_cases hlen : m.length ≤ 1
    · -- under the invariants a nonempty map of at most one entry is impossible
      have hm : m = [] := by
        cases m with
        | nil => rfl
        | cons p rest =>
          cases rest with
          | nil =>
            exfalso
            obtain ⟨-, hge⟩ := hent p (by simp)
            have h0 : p.2 = 0 := by
              rw [valuesSum_cons, valuesSum_nil] at hsum
              linarith
            rw [h0] at hge
            norm_num at hge
          | cons q rest2 =>
            exfalso
            simp only [List.length_cons] at hlen
            omega
      subst hm
      rw [altLoop_small fuel [] acc (by simp)]
      exact ⟨fun u => by simp, fun s hs => Or.inl hs⟩
    · cases hfmc : findMaxCreditor m with
      | none =>
        exfalso
        obtain ⟨-, hm⟩ := (findMaxCreditor_aux m none).2 hfmc
        rw [hm] at hlen
        exact hlen (by simp)
      | some cpair =>
        obtain ⟨cu, ca⟩ := cpair
        obtain ⟨hCmax, -, hCmem0⟩ := (findMaxCreditor_aux m none).1 (cu, ca) hfmc
        have hCmem : (cu, ca) ∈ m := by
          rcases hCmem0 with h | h
          · exact h
          · exact absurd h (by simp)
        cases hfmd : findMaxDebtor m with
        | none =>
          exfalso
          obtain ⟨-, hall⟩ := (findMaxDebtor_aux m none).2 hfmd
          cases m with
          | nil => exact hlen (by simp)
          | cons p rest =>
            obtain ⟨-, hge⟩ := hent p (by simp)
            have hpnn : 0 ≤ p.2 := not_lt.mp (hall p (by simp))
            have hrest : 0 ≤ valuesSum rest :=
              valuesSum_nonneg (fun r hr => not_lt.mp (hall r (List.mem_cons_of_mem _ hr)))
            rw [abs_of_nonneg hpnn] at hge
            rw [valuesSum_cons] at hsum
            linarith
        | some dpair =>
          obtain ⟨du, da⟩ := dpair
          obtain ⟨-, -, hDmem0⟩ := (findMaxDebtor_aux m none).1 (du, da) hfmd
          have hDmem : ∃ q ∈ m, q.2 < 0 ∧ (du, da) = (q.1, |q.2|) := by
            rcases hDmem0 with h | h
            · exact h
            · exact absurd h (by simp)
          obtain ⟨q, hq, hqneg, hqeq⟩ := hDmem
          have hdu : du = q.1 := congrArg Prod.fst hqeq
          have hda : da = |q.2| := congrArg Prod.snd hqeq
          have hq2 : q.2 = -da := by rw [hda, abs_of_neg hqneg]; ring
          have hlkc : lookupA m cu = some ca := lookupA_eq_some_of_mem hnd hCmem
          have hqmem : (du, q.2) ∈ m := by
            rw [hdu]
            exact (show (q.1, q.2) ∈ m by simpa using hq)
          have hlkd : lookupA m du = some q.2 := lookupA_eq_some_of_mem hnd hqmem
          have hca_pos : 0 < ca := by
            by_contra hca
            push_neg at hca
            have hall : ∀ r ∈ m, r.2 ≤ 0 := fun r hr => le_trans (hCmax r hr) hca
            have hneg := valuesSum_neg_of_mem hall hq hqneg
            rw [hsum] at hneg
            exact lt_irrefl 0 hneg
          have hne : cu ≠ du := by
            intro heq
            rw [heq, hlkd] at hlkc
            injection hlkc with h
            rw [h] at hqneg
            linarith
          obtain ⟨hcac, hcag0⟩ := hent (cu, ca) hCmem
          have hcag : 1/100 ≤ ca := by rwa [abs_of_pos hca_pos] at hcag0
          obtain ⟨hqc, hqg⟩ := hent q hq
          have hdac : isCent da := by rw [hda]; exact isCent_abs hqc
          have hdag : 1/100 ≤ da := by rw [hda]; exact hqg
          obtain ⟨h2nd, h2sub, h2len, h2sum, h2cu, h2du, h2oth, h2mem⟩ :=
            altNext_facts hnd hlkc hlkd hne hq2 hcac hdac hcag hdag
          have hent2 : ∀ p ∈ altNext m cu ca du da, isCent p.2 ∧ 1/100 ≤ |p.2| := by
            intro p hp
            rcases h2mem p hp with h | h
            · exact hent p h
            · exact h
          have hsum2 : valuesSum (altNext m cu ca du da) = 0 := by rw [h2sum, hsum]
          have hfuel2 : (altNext m cu ca du da).length ≤ fuel := by omega
          have hks2 : ∀ x ∈ keysA (altNext m cu ca du da), x ≠ "" :=
            fun x hx => hks x (h2sub x hx)
          have hcu_ne : cu ≠ "" := hks cu (mem_keysA_of_lookupA hlkc)
          have hdu_ne : du ≠ "" := hks du (mem_keysA_of_lookupA hlkd)
          obtain ⟨ihdelta, ihmem⟩ := altLoop_spec fuel (altNext m cu ca du da)
            (acc ++ [{ fromUser := du, toUser := cu, amount := roundToTwo (min ca da) }])
            hfuel2 h2nd hks2 hent2 hsum2
          rw [altLoop_step fuel m acc hlen hfmc hfmd hcu_ne hdu_ne]
          have hround : roundToTwo (min ca da) = min ca da :=
            roundTwo_eq_self (isCent_min hcac hdac)
          have hfrom : (⟨du, cu, roundToTwo (min ca da)⟩ : Settlement).fromUser = du := rfl
          have hto : (⟨du, cu, roundToTwo (min ca da)⟩ : Settlement).toUser = cu := rfl
          have hamt : (⟨du, cu, roundToTwo (min ca da)⟩ : Settlement).amount = min ca da := hround
          constructor
          · intro u
            rw [ihdelta u, receivedBy_append, sentBy_append, receivedBy_single, sentBy_single,
              hfrom, hto, hamt]
            by_cases hu : u = cu
            · subst hu
              rw [if_pos rfl, if_neg (show ¬ du = u from fun h => hne h.symm), h2cu, hlkc]
              simp only [Option.getD_some]
              ring
            · by_cases hu2 : u = du
              · subst hu2
                rw [if_neg (show ¬ cu = u from fun h => hne h), if_pos rfl, h2du, hlkd]
                simp only [Option.getD_some]
                rw [hq2]
                ring
              · rw [if_neg (show ¬ cu = u from fun h => hu h.symm),
                  if_neg (show ¬ du = u from fun h => hu2 h.symm), h2oth u hu hu2]
                ring
          · intro s hs
            rcases ihmem s hs with h | h
            · rcases List.mem_append.mp h with h2 | h2
              · exact Or.inl h2
              · have hs2 : s = (⟨du, cu, roundToTwo (min ca da)⟩ : Settlement) := by
                  simpa using h2
                right
                rw [hs2]
                exact ⟨mem_keysA_of_lookupA hlkd, mem_keysA_of_lookupA hlkc,
                  fun h3 => hne h3.symm⟩
            · obtain ⟨h1, h2, h3⟩ := h
              exact Or.inr ⟨h2sub _ h1, h2sub _ h2, h3⟩

/-- Dropping the at-most-one-cent balances does not change the total when
every balance is either zero or above the threshold. -/
theorem sum_filter_threshold :
    ∀ (bs : List UserBalance), (∀ b ∈ bs, b.netAmount = 0 ∨ 1/100 < |b.netAmount|) →
      ((bs.filter (fun b => decide (1/100 < |b.netAmount|))).map (fun b => b.netAmount)).sum =
        (bs.map (fun b => b.netAmount)).sum
  | [], _ => rfl
  | b :: bs, h => by
    have hrest := sum_filter_threshold bs (fun b2 hb2 => h b2 (List.mem_cons_of_mem _ hb2))
    rcases h b (by simp) with hz | habove
    · rw [List.filter_cons_of_neg (by norm_num [hz]), List.map_cons, List.sum_cons, hrest, hz]
      ring
    · rw [List.filter_cons_of_pos (by simpa using habove), List.map_cons, List.map_cons,
        List.sum_cons, List.sum_cons, hrest]

/-- Alternative-planner settlement correctness: on a duplicate-free,
cent-aligned balance list with no empty-string userId (on which the
source's `if (!maxCreditor || !maxDebtor) break` truthiness test would
abort the loop early) whose entries are each zero or above the one-cent
threshold and whose net amounts sum to zero, the vertex-merging plan
drives every replayed balance to exactly zero, so `validateSettlements`
accepts it. -/
theorem alternative_validates (bs : List UserBalance)
    (hnd : (bs.map (fun b => b.userId)).Nodup)
    (hid : ∀ b ∈ bs, b.userId ≠ "")
    (hcent : ∀ b ∈ bs, isCent b.netAmount)
    (hthr : ∀ b ∈ bs, b.netAmount = 0 ∨ 1/100 < |b.netAmount|)
    (hsum : (bs.map (fun b => b.netAmount)).sum = 0) :
    validateSettlements bs (minimizeSettlementsAlternative bs) = true := by
  have hplanEq : minimizeSettlementsAlternative bs =
      (if (bs.filter (fun b => decide (1/100 < |b.netAmount|))).length = 0 then []
       else
         altLoop (2 * (bs.filter (fun b => decide (1/100 < |b.netAmount|))).length + 2)
           ((bs.filter (fun b => decide (1/100 < |b.netAmount|))).foldl
             (fun m b => setA m b.userId b.netAmount) [])
           []) := rfl
  by_cases h0 : (bs.filter (fun b => decide (1/100 < |b.netAmount|))).length = 0
  · rw [hplanEq, if_pos h0]
    refine validate_nil_of_all_zero bs hnd ?_
    intro b hb
    rcases hthr b hb with h | h
    · exact h
    · exfalso
      have hmem : b ∈ bs.filter (fun b => decide (1/100 < |b.netAmount|)) :=
        List.mem_filter.mpr ⟨hb, by simpa using h⟩
      rw [List.length_eq_zero.mp h0] at hmem
      simp at hmem
  · rw [hplanEq, if_neg h0]
    have hndnz : ((bs.filter (fun b => decide (1/100 < |b.netAmount|))).map
        (fun b => b.userId)).Nodup :=
      List.Nodup.sublist ((List.filter_sublist bs).map (fun b => b.userId)) hnd
    have hmap : (bs.filter (fun b => decide (1/100 < |b.netAmount|))).foldl
          (fun m b => setA m b.userId b.netAmount) [] =
        (bs.filter (fun b => decide (1/100 < |b.netAmount|))).map
          (fun b => (b.userId, b.netAmount)) := by
      have h := foldl_setA_eq_map (fun b : UserBalance => b.userId)
        (fun b : UserBalance => b.netAmount)
        (bs.filter (fun b => decide (1/100 < |b.netAmount|))) [] (by simp) hndnz
      simpa using h
    rw [hmap]
    set A := (bs.filter (fun b => decide (1/100 < |b.netAmount|))).map
      (fun b => (b.userId, b.netAmount)) with hA
    have hkeysA : keysA A = (bs.filter (fun b => decide (1/100 < |b.netAmount|))).map
        (fun b => b.userId) := keysA_balance_pairs _
    have hndA : (keysA A).Nodup := by rw [hkeysA]; exact hndnz
    have hksA : ∀ x ∈ keysA A, x ≠ "" := by
      intro x hx
      rw [hkeysA] at hx
      obtain ⟨b, hb, rfl⟩ := List.mem_map.mp hx
      exact hid b (List.mem_filter.mp hb).1
    have hentA : ∀ p ∈ A, isCent p.2 ∧ 1/100 ≤ |p.2| := by
      intro p hp
      rw [hA] at hp
      obtain ⟨b, hb, rfl⟩ := List.mem_map.mp hp
      have hbf := List.mem_filter.mp hb
      have hthrb : 1/100 < |b.netAmount| := by simpa using hbf.2
      exact ⟨hcent b hbf.1, le_of_lt hthrb⟩
    have hsumA : valuesSum A = 0 := by
      have h1 : valuesSum A = ((bs.filter (fun b => decide (1/100 < |b.netAmount|))).map
          (fun b => b.netAmount)).sum := by
        rw [hA, valuesSum, List.map_map]
        rfl
      rw [h1, sum_filter_threshold bs hthr, hsum]
    have hlenA : A.length ≤
        2 * (bs.filter (fun b => decide (1/100 < |b.netAmount|))).length + 2 := by
      rw [hA, List.length_map]
      omega
    obtain ⟨hdelta, hmemS⟩ := altLoop_spec
      (2 * (bs.filter (fun b => decide (1/100 < |b.netAmount|))).length + 2) A []
      hlenA hndA hksA hentA hsumA
    set S := altLoop (2 * (bs.filter (fun b => decide (1/100 < |b.netAmount|))).length + 2) A []
      with hS
    have hinit := initialBalances_eq_map bs hnd
    have hkeysinit : keysA (initialBalances bs) = bs.map (fun b => b.userId) := by
      rw [hinit, keysA_balance_pairs]
    have hndkeys : (keysA (initialBalances bs)).Nodup := by rwa [hkeysinit]
    have hgoodS : ∀ s ∈ S, s.fromUser ∈ keysA (initialBalances bs) ∧
        s.toUser ∈ keysA (initialBalances bs) ∧ s.fromUser ≠ s.toUser := by
      intro s hs
      rcases hmemS s hs with h | h
      · simp at h
      · obtain ⟨hf, ht, hne⟩ := h
        rw [hkeysA] at hf ht
        exact ⟨by rw [hkeysinit]; exact filter_map_subset_ids bs _ hf,
          by rw [hkeysinit]; exact filter_map_subset_ids bs _ ht, hne⟩
    obtain ⟨hkeysfin, hvals⟩ := lookupA_applySettlements S (initialBalances bs) hndkeys hgoodS
    rw [validateSettlements, List.all_eq_true]
    intro p hp
    obtain ⟨u, v⟩ := p
    have hndfin : (keysA (applySettlements (initialBalances bs) S)).Nodup := by
      rw [hkeysfin]
      exact hndkeys
    have hlkfin : lookupA (applySettlements (initialBalances bs) S) u = some v :=
      lookupA_eq_some_of_mem hndfin hp
    rw [hvals u] at hlkfin
    cases hlk0 : lookupA (initialBalances bs) u with
    | none =>
      rw [hlk0] at hlkfin
      exact absurd hlkfin (by simp)
    | some v0 =>
      rw [hlk0] at hlkfin
      simp only [Option.map_some', Option.some.injEq] at hlkfin
      have hmem0 := mem_of_lookupA_eq_some hlk0
      rw [hinit] at hmem0
      obtain ⟨b, hb, hbe⟩ := List.mem_map.mp hmem0
      injection hbe with hbu hbv
      have hd := hdelta u
      rw [sentBy_nil, receivedBy_nil] at hd
      rcases hthr b hb with hz | habove
      · -- a zero balance never enters the amounts map
        have hnotin : u ∉ keysA A := by
          rw [hkeysA]
          intro hmem2
          obtain ⟨b2, hb2, hbid⟩ := List.mem_map.mp hmem2
          have hb2f := List.mem_filter.mp hb2
          have hb2thr : 1/100 < |b2.netAmount| := by simpa using hb2f.2
          have hbeq : b2 = b := List.inj_on_of_nodup_map hnd hb2f.1 hb (by rw [hbid, hbu])
          rw [hbeq, hz] at hb2thr
          norm_num at hb2thr
        have hlkA : lookupA A u = none := lookupA_eq_none_of_not_mem hnotin
        rw [hlkA] at hd
        simp only [Option.getD_none] at hd
        have hv0 : v0 = 0 := by rw [← hbv]; exact hz
        have hv : v = 0 := by
          rw [hv0] at hlkfin
          linarith
        simp [hv]
      · -- an above-threshold balance is settled to exactly zero
        have hbA : (u, v0) ∈ A := by
          rw [hA]
          refine List.mem_map.mpr ⟨b, List.mem_filter.mpr ⟨hb, by simpa using habove⟩, ?_⟩
          rw [hbu, hbv]
        have hlkA : lookupA A u = some v0 := lookupA_eq_some_of_mem hndA hbA
        rw [hlkA] at hd
        simp only [Option.getD_some] at hd
        have hv : v = 0 := by linarith
        simp [hv]

end Settlements

/-- The glue an external caller applies between the two components:
`Array.from(calculateBalances(expenses).values())` restricted to the
planner's `{userId, netAmount}` interface. -/
def toSettlementBalances (l : List (String × Balances.UserBalance)) :
    List Settlements.UserBalance :=
  l.map (fun p => { userId := p.2.userId, netAmount := p.2.netAmount })



/-! ## The claims -/

/-- C1, amended.  As stated the claim is false (see the counterexample):
per-expense 1-cent tolerance, and even per-user rounding of exact inputs,
can push the rounded net amounts past the validator's strict 1-cent bound.
The amended claim: for every expense list in which each processed expense
has a cent-aligned amount, cent-aligned effective shares (explicit split or
equal-split fallback), and shares that sum exactly to the amount, the
balances produced by `calculateBalances` satisfy `validateBalanceSum`. -/
theorem claim_C1 (es : List Balances.ExpenseForBalance)
    (h : ∀ e ∈ es, Balances.isValidExpense e = true →
      isCent e.amount ∧ (∀ p ∈ e.participants, isCent (Balances.effShare e p)) ∧
      (e.participants.map (Balances.effShare e)).sum = e.amount) :
    Balances.validateBalanceSum (Balances.calculateBalances es) = true :=
  Balances.validateBalanceSum_exact es h

/-- C1, counterexample to the claim as stated: two half-cent expenses whose
split details sum exactly to their amounts (hence within any 1-cent
tolerance), yet the rounded net amounts sum to 0.01 and the validator
rejects them. -/
theorem claim_C1_counterexample :
    (∀ e ∈ ([⟨"e1", 1/200, "a", ["c"], [("c", ⟨some (1/200), none, none, none⟩)]⟩,
             ⟨"e2", 1/200, "b", ["c"], [("c", ⟨some (1/200), none, none, none⟩)]⟩] :
        List Balances.ExpenseForBalance),
      Balances.splitDetailsSum e = e.amount ∧ |Balances.splitDetailsSum e - e.amount| ≤ 1/100) ∧
    Balances.validateBalanceSum (Balances.calculateBalances
      [⟨"e1", 1/200, "a", ["c"], [("c", ⟨some (1/200), none, none, none⟩)]⟩,
       ⟨"e2", 1/200, "b", ["c"], [("c", ⟨some (1/200), none, none, none⟩)]⟩]) = false := by
  constructor
  · intro e he
    fin_cases he <;> constructor <;> norm_num [Balances.splitDetailsSum]
  · iterate 3
      try simp [Balances.calculateBalances, Balances.processExpense, Balances.owedFoldAux,
        Balances.getBalanceThen, setA, lookupA, Balances.splitAmount, Balances.roundToTwo,
        Balances.validateBalanceSum]
      try norm_num [Balances.calculateBalances, Balances.processExpense, Balances.owedFoldAux,
        Balances.getBalanceThen, setA, lookupA, Balances.splitAmount, Balances.roundToTwo,
        Balances.validateBalanceSum]
    all_goals norm_num [abs_of_nonneg]

/-- C1, witness for the amended claim: a 10.00 expense among three
participants with explicit shares 3.33 / 3.33 / 3.34 (exact, cent-aligned)
passes the validator. -/
theorem claim_C1_witness :
    (∀ e ∈ ([⟨"e", 10, "a", ["a", "b", "c"],
        [("a", ⟨some (333/100), none, none, none⟩), ("b", ⟨some (333/100), none, none, none⟩),
         ("c", ⟨some (334/100), none, none, none⟩)]⟩] : List Balances.ExpenseForBalance),
      Balances.isValidExpense e = true →
      isCent e.amount ∧ (∀ p ∈ e.participants, isCent (Balances.effShare e p)) ∧
      (e.participants.map (Balances.effShare e)).sum = e.amount) ∧
    Balances.validateBalanceSum (Balances.calculateBalances
      [⟨"e", 10, "a", ["a", "b", "c"],
        [("a", ⟨some (333/100), none, none, none⟩), ("b", ⟨some (333/100), none, none, none⟩),
         ("c", ⟨some (334/100), none, none, none⟩)]⟩]) = true := by
  have hhyp : ∀ e ∈ ([⟨"e", 10, "a", ["a", "b", "c"],
        [("a", ⟨some (333/100), none, none, none⟩), ("b", ⟨some (333/100), none, none, none⟩),
         ("c", ⟨some (334/100), none, none, none⟩)]⟩] : List Balances.ExpenseForBalance),
      Balances.isValidExpense e = true →
      isCent e.amount ∧ (∀ p ∈ e.participants, isCent (Balances.effShare e p)) ∧
      (e.participants.map (Balances.effShare e)).sum = e.amount := by
    intro e he _
    fin_cases he
    refine ⟨⟨1000, by norm_num⟩, ?_, ?_⟩
    · intro q hq
      fin_cases hq
      · exact ⟨333, by simp [Balances.effShare, Balances.splitAmount]⟩
      · exact ⟨333, by simp [Balances.effShare, Balances.splitAmount]⟩
      · exact ⟨334, by simp [Balances.effShare, Balances.splitAmount]⟩
    · simp [Balances.effShare, Balances.splitAmount]
      norm_num
  exact ⟨hhyp, claim_C1 _ hhyp⟩


/-- C4, confirmed.  The greedy matching loop is total (the embedding's
fuel `creditors.length + debtors.length` is never exhausted because every
iteration discharges the creditor head, the debtor head, or both — this is
`settleLoop_length`), and the number of emitted settlements is at most
`n - 1` where `n` is the number of entries with non-zero `netAmount`. -/
theorem claim_C4 (bs : List Settlements.UserBalance) :
    (Settlements.minimizeSettlements bs).length ≤
      (bs.filter (fun b => decide (¬ b.netAmount = 0))).length - 1 := by
  rcases Settlements.minimize_length_bound bs with h | h
  · rw [h]
    simp
  · omega

/-- C5, confirmed.  `calculateBalances` is insensitive to the order of its
input: permuted expense lists produce the same mapping from `userId` to
`UserBalance` (netAmount, totalPaid, totalOwed). -/
theorem claim_C5 (es1 es2 : List Balances.ExpenseForBalance) (h : es1.Perm es2) (u : String) :
    lookupA (Balances.calculateBalances es1) u = lookupA (Balances.calculateBalances es2) u := by
  rw [Balances.lookupA_calculateBalances, Balances.lookupA_calculateBalances,
    Balances.totalPaidOf_perm h, Balances.totalOwedOf_perm h, Balances.touchesAny_perm h]

/-- C5, witness: swapping two concrete expenses leaves the mapping
unchanged at a participating user. -/
theorem claim_C5_witness :
    ([⟨"x", 5, "a", ["b"], []⟩, ⟨"y", 7, "b", ["a"], []⟩] :
        List Balances.ExpenseForBalance).Perm
      [⟨"y", 7, "b", ["a"], []⟩, ⟨"x", 5, "a", ["b"], []⟩] ∧
    lookupA (Balances.calculateBalances
        [⟨"x", 5, "a", ["b"], []⟩, ⟨"y", 7, "b", ["a"], []⟩]) "a" =
      lookupA (Balances.calculateBalances
        [⟨"y", 7, "b", ["a"], []⟩, ⟨"x", 5, "a", ["b"], []⟩]) "a" :=
  ⟨List.Perm.swap _ _ [], claim_C5 _ _ (List.Perm.swap _ _ []) "a"⟩

/-- C6, confirmed.  `calculateBalances` never fails (it is a total
function), and expenses with a non-positive amount, a missing `paidBy`, or
an empty participant list contribute nothing: the result equals
`calculateBalances` of the sublist of well-formed expenses. -/
theorem claim_C6 (es : List Balances.ExpenseForBalance) :
    Balances.calculateBalances es =
      Balances.calculateBalances (es.filter Balances.isValidExpense) := by
  by_cases hes : es = []
  · subst hes
    rfl
  · by_cases hf : es.filter Balances.isValidExpense = []
    · rw [Balances.calculateBalances, Balances.calculateBalances, if_neg hes, if_pos hf,
        Balances.foldl_processExpense_filter, hf]
      rfl
    · rw [Balances.calculateBalances, Balances.calculateBalances, if_neg hes, if_neg hf,
        Balances.foldl_processExpense_filter]

/-- C7, confirmed.  For a processed expense, each occurrence of a
participant in the participant list adds their explicit
`splitDetails[participant].amount` when present (with a defined amount) and
otherwise the equal split `amount / participants.length` — this is
`effShare` — to their `owed` accumulator; and concretely, an expense of
90.00 among 3 participants with no split details charges each participant
exactly 30.00. -/
theorem claim_C7 :
    (∀ (m : List (String × Balances.PaidOwed)) (e : Balances.ExpenseForBalance) (p : String),
      ¬ e.amount ≤ 0 → ¬ (e.paidBy = "" ∨ e.participants = []) → p ∈ e.participants →
      (lookupA (Balances.processExpense m e) p).map Balances.PaidOwed.owed =
        some (((lookupA m p).getD ⟨0, 0⟩).owed +
          (Balances.countOcc p e.participants : ℚ) * Balances.effShare e p)) ∧
    (lookupA (Balances.calculateBalances [⟨"e", 90, "a", ["a", "b", "c"], []⟩]) "a" =
        some ⟨"a", 60, 90, 30⟩ ∧
      lookupA (Balances.calculateBalances [⟨"e", 90, "a", ["a", "b", "c"], []⟩]) "b" =
        some ⟨"b", -30, 0, 30⟩ ∧
      lookupA (Balances.calculateBalances [⟨"e", 90, "a", ["a", "b", "c"], []⟩]) "c" =
        some ⟨"c", -30, 0, 30⟩) := by
  constructor
  · intro m e p h1 h2 hp
    have hv : Balances.isValidExpense e = true := by
      push_neg at h2
      simp [Balances.isValidExpense, h1, h2.1, h2.2]
    rw [Balances.lookupA_processExpense]
    have htouch : Balances.touches e p = true := by
      simp [Balances.touches, hv, hp]
    cases hm : lookupA m p with
    | none =>
      simp only [hm, htouch, if_true, Option.map_some', Option.getD_none]
      rw [Balances.owedContrib]
      simp [hv]
    | some b =>
      simp only [hm, Option.map_some', Option.getD_some]
      rw [Balances.owedContrib]
      simp [hv]
  · refine ⟨?_, ?_, ?_⟩ <;>
    · iterate 3
        try simp [Balances.calculateBalances, Balances.processExpense, Balances.owedFoldAux,
          Balances.getBalanceThen, setA, lookupA, Balances.splitAmount, Balances.roundToTwo]
        try norm_num [Balances.calculateBalances, Balances.processExpense, Balances.owedFoldAux,
          Balances.getBalanceThen, setA, lookupA, Balances.splitAmount, Balances.roundToTwo]

/-- C7, witness: the general statement applied at a concrete expense and
participant. -/
theorem claim_C7_witness :
    ¬ (⟨"e", 90, "a", ["a", "b", "c"], []⟩ : Balances.ExpenseForBalance).amount ≤ 0 ∧
    (lookupA (Balances.processExpense [] ⟨"e", 90, "a", ["a", "b", "c"], []⟩) "b").map
        Balances.PaidOwed.owed =
      some (((lookupA ([] : List (String × Balances.PaidOwed)) "b").getD ⟨0, 0⟩).owed +
        (Balances.countOcc "b" ["a", "b", "c"] : ℚ) *
          Balances.effShare ⟨"e", 90, "a", ["a", "b", "c"], []⟩ "b") := by
  refine ⟨by norm_num, ?_⟩
  exact claim_C7.1 [] ⟨"e", 90, "a", ["a", "b", "c"], []⟩ "b" (by norm_num)
    (by simp) (by simp)

/-- C8, confirmed.  `calculateBalances` of the empty list is the empty
mapping, and `minimizeSettlements` returns the empty plan when the input
has fewer than 2 entries or all net amounts are zero. -/
theorem claim_C8 :
    Balances.calculateBalances [] = [] ∧
    (∀ bs : List Settlements.UserBalance, bs.length < 2 →
      Settlements.minimizeSettlements bs = []) ∧
    (∀ bs : List Settlements.UserBalance, (∀ b ∈ bs, b.netAmount = 0) →
      Settlements.minimizeSettlements bs = []) := by
  refine ⟨rfl, ?_, ?_⟩
  · intro bs h
    rw [Settlements.minimizeSettlements, if_pos (by omega)]
  · intro bs h
    by_cases h1 : bs.length ≤ 1
    · rw [Settlements.minimizeSettlements, if_pos h1]
    · rw [Settlements.minimizeSettlements, if_neg h1,
        if_pos (List.all_eq_true.mpr fun b hb => decide_eq_true (h b hb))]

/-- C8, witness: the boundary conclusions at concrete inputs. -/
theorem claim_C8_witness :
    Settlements.minimizeSettlements [⟨"a", 5⟩] = [] ∧
    Settlements.minimizeSettlements [⟨"a", 0⟩, ⟨"b", 0⟩] = [] :=
  ⟨claim_C8.2.1 [⟨"a", 5⟩] (by simp),
   claim_C8.2.2 [⟨"a", 0⟩, ⟨"b", 0⟩] (by intro b hb; fin_cases hb <;> rfl)⟩


/-- C2, amended.  As stated the claim is false (see the counterexample):
a Balance Engine output need not sum to zero once a split is short, and the
greedy loop then strands a creditor remainder that fails validation.  The
amended claim: for every balance list with pairwise-distinct user ids,
cent-aligned net amounts, and nets summing exactly to zero — in particular
the Balance Engine output on exact cent-aligned inputs — replaying
`minimizeSettlements` drives every balance to zero, so `validateSettlements`
accepts the plan. -/
theorem claim_C2 (bs : List Settlements.UserBalance)
    (hnd : (bs.map (fun b => b.userId)).Nodup)
    (hcent : ∀ b ∈ bs, isCent b.netAmount)
    (hsum : (bs.map (fun b => b.netAmount)).sum = 0) :
    Settlements.validateSettlements bs (Settlements.minimizeSettlements bs) = true :=
  Settlements.greedy_validates bs hnd hcent hsum

/-- C2, counterexample to the claim as stated: two expenses whose splits
are each one cent short (within the documented 1-cent tolerance) produce a
Balance Engine output `{a: +2.00, b: -1.98}`; the greedy plan transfers
1.98 and leaves `a` at +0.02, which `validateSettlements` rejects. -/
theorem claim_C2_counterexample :
    (∀ e ∈ ([⟨"e1", 1, "a", ["b"], [("b", ⟨some (99/100), none, none, none⟩)]⟩,
             ⟨"e2", 1, "a", ["b"], [("b", ⟨some (99/100), none, none, none⟩)]⟩] :
        List Balances.ExpenseForBalance),
      |Balances.splitDetailsSum e - e.amount| ≤ 1/100) ∧
    Settlements.validateSettlements
      (toSettlementBalances (Balances.calculateBalances
        [⟨"e1", 1, "a", ["b"], [("b", ⟨some (99/100), none, none, none⟩)]⟩,
         ⟨"e2", 1, "a", ["b"], [("b", ⟨some (99/100), none, none, none⟩)]⟩]))
      (Settlements.minimizeSettlements (toSettlementBalances (Balances.calculateBalances
        [⟨"e1", 1, "a", ["b"], [("b", ⟨some (99/100), none, none, none⟩)]⟩,
         ⟨"e2", 1, "a", ["b"], [("b", ⟨some (99/100), none, none, none⟩)]⟩]))) = false := by
  have hbal : Balances.calculateBalances
      [⟨"e1", 1, "a", ["b"], [("b", ⟨some (99/100), none, none, none⟩)]⟩,
       ⟨"e2", 1, "a", ["b"], [("b", ⟨some (99/100), none, none, none⟩)]⟩] =
      [("a", ⟨"a", 2, 2, 0⟩), ("b", ⟨"b", -198/100, 0, 198/100⟩)] := by
    iterate 3
      try simp [Balances.calculateBalances, Balances.processExpense, Balances.owedFoldAux,
        Balances.getBalanceThen, setA, lookupA, Balances.splitAmount, Balances.roundToTwo]
      try norm_num [Balances.calculateBalances, Balances.processExpense, Balances.owedFoldAux,
        Balances.getBalanceThen, setA, lookupA, Balances.splitAmount, Balances.roundToTwo]
  have hplan : Settlements.minimizeSettlements [⟨"a", 2⟩, ⟨"b", -198/100⟩] =
      [⟨"b", "a", 198/100⟩] := by
    iterate 3
      try simp [Settlements.minimizeSettlements, Settlements.sortDesc, Settlements.insertDesc,
        Settlements.settleLoop, Settlements.roundToTwo, min_def, abs_of_nonneg, abs_of_nonpos]
      try norm_num [Settlements.minimizeSettlements, Settlements.sortDesc, Settlements.insertDesc,
        Settlements.settleLoop, Settlements.roundToTwo, min_def, abs_of_nonneg, abs_of_nonpos]
  have hval : Settlements.validateSettlements [⟨"a", 2⟩, ⟨"b", -198/100⟩]
      [⟨"b", "a", 198/100⟩] = false := by
    iterate 3
      try simp [Settlements.validateSettlements, Settlements.initialBalances,
        Settlements.applySettlements, setA, lookupA, abs_of_nonneg]
      try norm_num [Settlements.validateSettlements, Settlements.initialBalances,
        Settlements.applySettlements, setA, lookupA, abs_of_nonneg]
  constructor
  · intro e he
    fin_cases he <;> norm_num [Balances.splitDetailsSum, abs_of_nonpos]
  · rw [hbal]
    have hts : toSettlementBalances [("a", ⟨"a", 2, 2, 0⟩), ("b", ⟨"b", -198/100, 0, 198/100⟩)] =
        [⟨"a", 2⟩, ⟨"b", -198/100⟩] := rfl
    rw [hts, hplan, hval]

/-- C2, witness for the amended claim: the concrete zero-sum balance set
`{alice: +60, bob: -30, charlie: -30}` validates against its greedy plan. -/
theorem claim_C2_witness :
    (([⟨"alice", 60⟩, ⟨"bob", -30⟩, ⟨"charlie", -30⟩] : List Settlements.UserBalance).map
        (fun b => b.userId)).Nodup ∧
    (([⟨"alice", 60⟩, ⟨"bob", -30⟩, ⟨"charlie", -30⟩] : List Settlements.UserBalance).map
        (fun b => b.netAmount)).sum = 0 ∧
    Settlements.validateSettlements [⟨"alice", 60⟩, ⟨"bob", -30⟩, ⟨"charlie", -30⟩]
      (Settlements.minimizeSettlements [⟨"alice", 60⟩, ⟨"bob", -30⟩, ⟨"charlie", -30⟩]) = true := by
  refine ⟨by decide, by norm_num, ?_⟩
  exact claim_C2 [⟨"alice", 60⟩, ⟨"bob", -30⟩, ⟨"charlie", -30⟩] (by decide)
    (by
      intro b hb
      fin_cases hb
      · exact ⟨6000, by norm_num⟩
      · exact ⟨-3000, by norm_num⟩
      · exact ⟨-3000, by norm_num⟩)
    (by norm_num)

/-- C3, amended.  As stated the claim is false in both directions (see the
counterexample): `getTheoreticalMinimum` counts only entries with
`|netAmount| > 0.01`, so balances of exactly one cent make the plan longer
than the "minimum", and exact sub-matches can make the greedy plan shorter
than `n − 1`.  The amended claim: when every entry's net amount is either
zero or above the 0.01 threshold, the plan length is at most
`getTheoreticalMinimum`. -/
theorem claim_C3 (bs : List Settlements.UserBalance)
    (hthr : ∀ b ∈ bs, b.netAmount = 0 ∨ 1/100 < |b.netAmount|) :
    ((Settlements.minimizeSettlements bs).length : ℤ) ≤
      Settlements.getTheoreticalMinimum bs := by
  have hfe : bs.filter (fun b => decide (1/100 < |b.netAmount|)) =
      bs.filter (fun b => decide (¬ b.netAmount = 0)) := by
    refine List.filter_congr ?_
    intro b hb
    rcases hthr b hb with h | h
    · rw [decide_eq_false (by rw [h]; norm_num : ¬ 1/100 < |b.netAmount|),
        decide_eq_false (by simp [h] : ¬ ¬ b.netAmount = 0)]
    · have h1 : ¬ b.netAmount = 0 := by
        intro h0
        rw [h0] at h
        norm_num at h
      rw [decide_eq_true h, decide_eq_true h1]
  have hmin : Settlements.getTheoreticalMinimum bs =
      max 0 (((bs.filter (fun b => decide (¬ b.netAmount = 0))).length : ℤ) - 1) := by
    show max 0 (((bs.filter (fun b => decide (1/100 < |b.netAmount|))).length : ℤ) - 1) =
      max 0 (((bs.filter (fun b => decide (¬ b.netAmount = 0))).length : ℤ) - 1)
    rw [hfe]
  rw [hmin]
  rcases Settlements.minimize_length_bound bs with h | h
  · rw [h]
    simp
  · refine le_trans ?_ (le_max_right _ _)
    omega

/-- C3, counterexample to the claim as stated: the zero-sum balance set
`{A: +0.01, B: -0.01}` needs one greedy settlement, but
`getTheoreticalMinimum` counts no entry above the 0.01 threshold and
returns 0. -/
theorem claim_C3_counterexample :
    (([⟨"A", 1/100⟩, ⟨"B", -1/100⟩] : List Settlements.UserBalance).map
        (fun b => b.netAmount)).sum = 0 ∧
    ¬ (((Settlements.minimizeSettlements [⟨"A", 1/100⟩, ⟨"B", -1/100⟩]).length : ℤ) =
      Settlements.getTheoreticalMinimum [⟨"A", 1/100⟩, ⟨"B", -1/100⟩]) := by
  have hplan : Settlements.minimizeSettlements [⟨"A", 1/100⟩, ⟨"B", -1/100⟩] =
      [⟨"B", "A", 1/100⟩] := by
    iterate 3
      try simp [Settlements.minimizeSettlements, Settlements.sortDesc, Settlements.insertDesc,
        Settlements.settleLoop, Settlements.roundToTwo, min_def, abs_of_nonneg, abs_of_nonpos]
      try norm_num [Settlements.minimizeSettlements, Settlements.sortDesc, Settlements.insertDesc,
        Settlements.settleLoop, Settlements.roundToTwo, min_def, abs_of_nonneg, abs_of_nonpos]
  have hth : Settlements.getTheoreticalMinimum [⟨"A", 1/100⟩, ⟨"B", -1/100⟩] = 0 := by
    iterate 3
      try simp [Settlements.getTheoreticalMinimum, abs_of_nonneg, abs_of_nonpos, max_def]
      try norm_num [Settlements.getTheoreticalMinimum, abs_of_nonneg, abs_of_nonpos, max_def]
  constructor
  · norm_num
  · rw [hplan, hth]
    norm_num

/-- C3, witness for the amended claim at a concrete above-threshold input. -/
theorem claim_C3_witness :
    (∀ b ∈ ([⟨"A", 60⟩, ⟨"B", -60⟩] : List Settlements.UserBalance),
      b.netAmount = 0 ∨ 1/100 < |b.netAmount|) ∧
    ((Settlements.minimizeSettlements [⟨"A", 60⟩, ⟨"B", -60⟩]).length : ℤ) ≤
      Settlements.getTheoreticalMinimum [⟨"A", 60⟩, ⟨"B", -60⟩] := by
  have hthr : ∀ b ∈ ([⟨"A", 60⟩, ⟨"B", -60⟩] : List Settlements.UserBalance),
      b.netAmount = 0 ∨ 1/100 < |b.netAmount| := by
    intro b hb
    fin_cases hb <;> right <;> norm_num [abs_of_nonneg, abs_of_nonpos]
  exact ⟨hthr, claim_C3 _ hthr⟩

/-- C9, amended.  As stated the claim is false (see the counterexample):
on sub-cent balances the emitted amount can round to 0, which is not
positive.  The amended claim: on a balance list with pairwise-distinct user
ids and cent-aligned net amounts, every emitted settlement goes from a user
with strictly negative net to a user with strictly positive net (hence
`fromUser ≠ toUser`) and carries a positive amount that is a fixed point of
`roundToTwo`. -/
theorem claim_C9 (bs : List Settlements.UserBalance)
    (hnd : (bs.map (fun b => b.userId)).Nodup)
    (hcent : ∀ b ∈ bs, isCent b.netAmount) :
    ∀ s ∈ Settlements.minimizeSettlements bs,
      (∃ b ∈ bs, b.userId = s.fromUser ∧ b.netAmount < 0) ∧
      (∃ b ∈ bs, b.userId = s.toUser ∧ 0 < b.netAmount) ∧
      s.fromUser ≠ s.toUser ∧ 0 < s.amount ∧
      Settlements.roundToTwo s.amount = s.amount := by
  intro s hs
  obtain ⟨hf, ht, hc, hge⟩ := Settlements.minimize_mem bs hcent s hs
  obtain ⟨b1, hb1, hu1⟩ := List.mem_map.mp hf
  obtain ⟨b2, hb2, hu2⟩ := List.mem_map.mp ht
  have hf1 := List.mem_filter.mp hb1
  have hf2 := List.mem_filter.mp hb2
  refine ⟨⟨b1, hf1.1, hu1, by simpa using hf1.2⟩, ⟨b2, hf2.1, hu2, by simpa using hf2.2⟩,
    ?_, ?_, Settlements.roundTwo_eq_self hc⟩
  · intro heq
    exact Settlements.pos_neg_userId_disjoint hnd ht (heq ▸ hf)
  · have : (0 : ℚ) < 1/100 := by norm_num
    linarith

/-- C9, counterexample to the claim as stated: balances of ±0.004 produce a
settlement whose rounded amount is 0, not positive. -/
theorem claim_C9_counterexample :
    ∃ s ∈ Settlements.minimizeSettlements [⟨"A", 1/250⟩, ⟨"B", -1/250⟩], ¬ 0 < s.amount := by
  have hplan : Settlements.minimizeSettlements [⟨"A", 1/250⟩, ⟨"B", -1/250⟩] =
      [⟨"B", "A", 0⟩] := by
    iterate 3
      try simp [Settlements.minimizeSettlements, Settlements.sortDesc, Settlements.insertDesc,
        Settlements.settleLoop, Settlements.roundToTwo, min_def, abs_of_nonneg, abs_of_nonpos]
      try norm_num [Settlements.minimizeSettlements, Settlements.sortDesc, Settlements.insertDesc,
        Settlements.settleLoop, Settlements.roundToTwo, min_def, abs_of_nonneg, abs_of_nonpos]
  refine ⟨⟨"B", "A", 0⟩, ?_, by norm_num⟩
  rw [hplan]
  simp

/-- C9, witness for the amended claim at a concrete two-user input. -/
theorem claim_C9_witness :
    0 < (⟨"bob", "alice", 60⟩ : Settlements.Settlement).amount ∧
    (∃ b ∈ ([⟨"alice", 60⟩, ⟨"bob", -60⟩] : List Settlements.UserBalance),
      b.userId = (⟨"bob", "alice", 60⟩ : Settlements.Settlement).fromUser ∧
        b.netAmount < 0) := by
  have hplan : Settlements.minimizeSettlements [⟨"alice", 60⟩, ⟨"bob", -60⟩] =
      [⟨"bob", "alice", 60⟩] := by
    iterate 3
      try simp [Settlements.minimizeSettlements, Settlements.sortDesc, Settlements.insertDesc,
        Settlements.settleLoop, Settlements.roundToTwo, min_def, abs_of_nonneg, abs_of_nonpos]
      try norm_num [Settlements.minimizeSettlements, Settlements.sortDesc, Settlements.insertDesc,
        Settlements.settleLoop, Settlements.roundToTwo, min_def, abs_of_nonneg, abs_of_nonpos]
  have H := claim_C9 [⟨"alice", 60⟩, ⟨"bob", -60⟩] (by decide)
    (by
      intro b hb
      fin_cases hb
      · exact ⟨6000, by norm_num⟩
      · exact ⟨-6000, by norm_num⟩)
    ⟨"bob", "alice", 60⟩ (by rw [hplan]; simp)
  exact ⟨H.2.2.2.1, H.1⟩

/-- C10, amended.  As stated the claim is false (see the counterexample):
`minimizeSettlementsAlternative` drops every balance of at most one cent
before it starts, so on inputs containing such balances its plan can have
a different length and a different `validateSettlements` outcome than the
greedy plan.  (Its `if (!maxCreditor || !maxDebtor) break` also aborts the
loop when the chosen maximum's userId is the falsy empty string — another
divergence from the greedy planner.)  The amended claim: on
duplicate-free, cent-aligned balance lists with no empty-string userId,
whose entries are each zero or above the one-cent threshold and whose net
amounts sum to zero, both planners produce plans accepted by
`validateSettlements`. -/
theorem claim_C10 (bs : List Settlements.UserBalance)
    (hnd : (bs.map (fun b => b.userId)).Nodup)
    (hid : ∀ b ∈ bs, b.userId ≠ "")
    (hcent : ∀ b ∈ bs, isCent b.netAmount)
    (hthr : ∀ b ∈ bs, b.netAmount = 0 ∨ 1/100 < |b.netAmount|)
    (hsum : (bs.map (fun b => b.netAmount)).sum = 0) :
    Settlements.validateSettlements bs (Settlements.minimizeSettlements bs) = true ∧
    Settlements.validateSettlements bs (Settlements.minimizeSettlementsAlternative bs) = true :=
  ⟨Settlements.greedy_validates bs hnd hcent hsum,
   Settlements.alternative_validates bs hnd hid hcent hthr hsum⟩

/-- C10, counterexample to the claim as stated: on the zero-sum balances
`{a: +0.02, b: -0.01, c: -0.01}` the greedy planner emits two settlements
and its replay validates, while the alternative planner filters every
balance of at most one cent away, emits no settlements at all, and fails
validation — both the plan lengths and the validation outcomes differ. -/
theorem claim_C10_counterexample :
    (Settlements.minimizeSettlements
        [⟨"a", 2/100⟩, ⟨"b", -1/100⟩, ⟨"c", -1/100⟩]).length ≠
      (Settlements.minimizeSettlementsAlternative
        [⟨"a", 2/100⟩, ⟨"b", -1/100⟩, ⟨"c", -1/100⟩]).length ∧
    Settlements.validateSettlements [⟨"a", 2/100⟩, ⟨"b", -1/100⟩, ⟨"c", -1/100⟩]
        (Settlements.minimizeSettlements
          [⟨"a", 2/100⟩, ⟨"b", -1/100⟩, ⟨"c", -1/100⟩]) = true ∧
    Settlements.validateSettlements [⟨"a", 2/100⟩, ⟨"b", -1/100⟩, ⟨"c", -1/100⟩]
        (Settlements.minimizeSettlementsAlternative
          [⟨"a", 2/100⟩, ⟨"b", -1/100⟩, ⟨"c", -1/100⟩]) = false := by
  have hgreedy : Settlements.minimizeSettlements
      [⟨"a", 2/100⟩, ⟨"b", -1/100⟩, ⟨"c", -1/100⟩] =
      [⟨"b", "a", 1/100⟩, ⟨"c", "a", 1/100⟩] := by
    iterate 3
      try simp [Settlements.minimizeSettlements, Settlements.sortDesc, Settlements.insertDesc,
        Settlements.settleLoop, Settlements.roundToTwo, min_def, abs_of_nonneg, abs_of_nonpos]
      try norm_num [Settlements.minimizeSettlements, Settlements.sortDesc, Settlements.insertDesc,
        Settlements.settleLoop, Settlements.roundToTwo, min_def, abs_of_nonneg, abs_of_nonpos]
  have halt : Settlements.minimizeSettlementsAlternative
      [⟨"a", 2/100⟩, ⟨"b", -1/100⟩, ⟨"c", -1/100⟩] = [] := by
    iterate 3
      try simp [Settlements.minimizeSettlementsAlternative, Settlements.altLoop, setA,
        abs_of_nonneg, abs_of_nonpos]
      try norm_num [Settlements.minimizeSettlementsAlternative, Settlements.altLoop, setA,
        abs_of_nonneg, abs_of_nonpos]
  have hval1 : Settlements.validateSettlements [⟨"a", 2/100⟩, ⟨"b", -1/100⟩, ⟨"c", -1/100⟩]
      [⟨"b", "a", 1/100⟩, ⟨"c", "a", 1/100⟩] = true := by
    iterate 3
      try simp [Settlements.validateSettlements, Settlements.initialBalances,
        Settlements.applySettlements, setA, lookupA, abs_of_nonneg, abs_of_nonpos]
      try norm_num [Settlements.validateSettlements, Settlements.initialBalances,
        Settlements.applySettlements, setA, lookupA, abs_of_nonneg, abs_of_nonpos]
  have hval2 : Settlements.validateSettlements [⟨"a", 2/100⟩, ⟨"b", -1/100⟩, ⟨"c", -1/100⟩]
      ([] : List Settlements.Settlement) = false := by
    iterate 3
      try simp [Settlements.validateSettlements, Settlements.initialBalances,
        Settlements.applySettlements, setA, lookupA, abs_of_nonneg, abs_of_nonpos]
      try norm_num [Settlements.validateSettlements, Settlements.initialBalances,
        Settlements.applySettlements, setA, lookupA, abs_of_nonneg, abs_of_nonpos]
  refine ⟨?_, ?_, ?_⟩
  · rw [hgreedy, halt]
    decide
  · rw [hgreedy]
    exact hval1
  · rw [halt]
    exact hval2

/-- C10, witness for the amended claim: on the zero-sum balances
`{p: +5, q: -3, r: -2}` both planners' plans validate. -/
theorem claim_C10_witness :
    (([⟨"p", 5⟩, ⟨"q", -3⟩, ⟨"r", -2⟩] : List Settlements.UserBalance).map
        (fun b => b.userId)).Nodup ∧
    (([⟨"p", 5⟩, ⟨"q", -3⟩, ⟨"r", -2⟩] : List Settlements.UserBalance).map
        (fun b => b.netAmount)).sum = 0 ∧
    (Settlements.validateSettlements [⟨"p", 5⟩, ⟨"q", -3⟩, ⟨"r", -2⟩]
        (Settlements.minimizeSettlements [⟨"p", 5⟩, ⟨"q", -3⟩, ⟨"r", -2⟩]) = true ∧
      Settlements.validateSettlements [⟨"p", 5⟩, ⟨"q", -3⟩, ⟨"r", -2⟩]
        (Settlements.minimizeSettlementsAlternative [⟨"p", 5⟩, ⟨"q", -3⟩, ⟨"r", -2⟩]) = true) := by
  refine ⟨by decide, by norm_num, ?_⟩
  exact claim_C10 [⟨"p", 5⟩, ⟨"q", -3⟩, ⟨"r", -2⟩] (by decide)
    (by intro b hb; fin_cases hb <;> decide)
    (by
      intro b hb
      fin_cases hb
      · exact ⟨500, by norm_num⟩
      · exact ⟨-300, by norm_num⟩
      · exact ⟨-200, by norm_num⟩)
    (by
      intro b hb
      fin_cases hb <;> right <;> norm_num [abs_of_nonneg, abs_of_nonpos])
    (by norm_num)
